import Mathlib

/-!
# pxlibDll.h: intrusive doubly-linked lists

A shallow embedding of the macros of `include/pxlibDll.h`.

A `pxlibDllMember *` is an address, modelled as a natural number.  The memory
holding the `pxlibDllMember` structures is a `Heap`: for every address the
contents of its `pNext` field and of its `pPrevious` field.  Every macro is a C
comma expression, a sequence of assignments; each assignment is one field
update of the heap, and every read happens in the heap produced by the
assignments before it, as in C.  The macro arguments are pointer values.

`NULL` is modelled by `none`: the macros that may yield `NULL` return an
`Option Link`.
-/

namespace PxlibDll

/-- The address of a `pxlibDllMember` (also of a `pxlibDllList`, the same struct). -/
abbrev Link := Nat

/-- The two fields of `struct pxlibDllMember`, for every address. -/
structure Heap where
  pNext : Link → Link
  pPrevious : Link → Link

/-- The assignment `(p)->pNext = v`. -/
def setNext (h : Heap) (p v : Link) : Heap :=
  { pNext := fun l => if l = p then v else h.pNext l, pPrevious := h.pPrevious }

/-- The assignment `(p)->pPrevious = v`. -/
def setPrevious (h : Heap) (p v : Link) : Heap :=
  { pNext := h.pNext, pPrevious := fun l => if l = p then v else h.pPrevious l }

/-- `pxlibDllMemberInit(pMember)`:
`((pMember)->pNext = (pMember), (pMember)->pPrevious = (pMember))`. -/
def pxlibDllMemberInit (pMember : Link) (h : Heap) : Heap :=
  let h1 := setNext h pMember pMember
  setPrevious h1 pMember pMember

/-- `pxlibDllAddAfter(pNew, pPos)`:
`(pNew)->pPrevious = (pPos), (pNew)->pNext = (pPos)->pNext,
(pPos)->pNext->pPrevious = (pNew), (pPos)->pNext = (pNew)`. -/
def pxlibDllAddAfter (pNew pPos : Link) (h : Heap) : Heap :=
  let h1 := setPrevious h pNew pPos
  let h2 := setNext h1 pNew (h1.pNext pPos)
  let h3 := setPrevious h2 (h2.pNext pPos) pNew
  setNext h3 pPos pNew

/-- `pxlibDllAddBefore(pNew, pPos)`:
`(pNew)->pNext = (pPos), (pNew)->pPrevious = (pPos)->pPrevious,
(pPos)->pPrevious->pNext = (pNew), (pPos)->pPrevious = (pNew)`. -/
def pxlibDllAddBefore (pNew pPos : Link) (h : Heap) : Heap :=
  let h1 := setNext h pNew pPos
  let h2 := setPrevious h1 pNew (h1.pPrevious pPos)
  let h3 := setNext h2 (h2.pPrevious pPos) pNew
  setPrevious h3 pPos pNew

/-- `pxlibDllRemove(pMember)`:
`(pMember)->pPrevious->pNext = (pMember)->pNext,
(pMember)->pNext->pPrevious = (pMember)->pPrevious`. -/
def pxlibDllRemove (pMember : Link) (h : Heap) : Heap :=
  let h1 := setNext h (h.pPrevious pMember) (h.pNext pMember)
  setPrevious h1 (h1.pNext pMember) (h1.pPrevious pMember)

/-- `pxlibDllListInit(pList)` is `pxlibDllMemberInit(pList)`. -/
def pxlibDllListInit (pList : Link) (h : Heap) : Heap :=
  pxlibDllMemberInit pList h

/-- `pxlibDllNext(pList, pMember)`:
`((pMember)->pNext == (pList) ? NULL : (pMember)->pNext)`. -/
def pxlibDllNext (pList pMember : Link) (h : Heap) : Option Link :=
  if h.pNext pMember = pList then none else some (h.pNext pMember)

/-- `pxlibDllPrev(pList, pMember)`:
`((pMember)->pPrevious == (pList) ? NULL : (pMember)->pPrevious)`. -/
def pxlibDllPrev (pList pMember : Link) (h : Heap) : Option Link :=
  if h.pPrevious pMember = pList then none else some (h.pPrevious pMember)

/-- `pxlibDllFirst(pList)` is `pxlibDllNext(pList, pList)`. -/
def pxlibDllFirst (pList : Link) (h : Heap) : Option Link :=
  pxlibDllNext pList pList h

/-- `pxlibDllLast(pList)` is `pxlibDllPrev(pList, pList)`. -/
def pxlibDllLast (pList : Link) (h : Heap) : Option Link :=
  pxlibDllPrev pList pList h

/-- `pxlibDllAppend(pList, pNew)` is `pxlibDllAddBefore(pNew, pList)`. -/
def pxlibDllAppend (pList pNew : Link) (h : Heap) : Heap :=
  pxlibDllAddBefore pNew pList h

/-- `pxlibDllPrepend(pList, pNew)` is `pxlibDllAddAfter(pNew, pList)`. -/
def pxlibDllPrepend (pList pNew : Link) (h : Heap) : Heap :=
  pxlibDllAddAfter pNew pList h

/-! ## Client-side notions used by the properties -/

/-- A heap for examples: every link is isolated (both fields point to itself). -/
def isolatedHeap : Heap := { pNext := fun l => l, pPrevious := fun l => l }

/-- `Linked h a b`: in `h`, `b` is the successor of `a` and `a` the predecessor of `b`:
`a.pNext == b` and `b.pPrevious == a`. -/
def Linked (h : Heap) (a b : Link) : Prop :=
  h.pNext a = b ∧ h.pPrevious b = a

/-- `Path h l`: every link of `l` is `Linked` to the one that follows it in `l`. -/
def Path (h : Heap) : List Link → Prop
  | [] => True
  | [_] => True
  | a :: b :: l => Linked h a b ∧ Path h (b :: l)

/-- `WellFormed h H xs`: in `h`, the list with sentinel `H` holds the members `xs` in
this order: `H` and the members are pairwise distinct, `H.pNext` is the first member,
every member's `pNext` is the following member, the last member's `pNext` is `H`,
and `pPrevious` is the inverse along the same cycle (for no member, `H.pNext == H`
and `H.pPrevious == H`). -/
def WellFormed (h : Heap) (H : Link) (xs : List Link) : Prop :=
  (H :: xs).Nodup ∧ Path h (H :: xs ++ [H])

/-- The heap with the roles of `pNext` and `pPrevious` exchanged. -/
def Heap.mirror (h : Heap) : Heap :=
  { pNext := h.pPrevious, pPrevious := h.pNext }

/-- One list operation of a client: `pxlibDllAddAfter(pNew, pPos)`,
`pxlibDllAddBefore(pNew, pPos)` or `pxlibDllRemove(pMember)`. -/
inductive Op where
  | addAfter (pNew pPos : Link)
  | addBefore (pNew pPos : Link)
  | remove (pMember : Link)

/-- The heap after the operation. -/
def Op.apply : Op → Heap → Heap
  | Op.addAfter pNew pPos, h => pxlibDllAddAfter pNew pPos h
  | Op.addBefore pNew pPos, h => pxlibDllAddBefore pNew pPos h
  | Op.remove pMember, h => pxlibDllRemove pMember h

/-- The current members after the operation, from the current members before it:
an inserted link becomes a member, a removed link stops being one. -/
def Op.members : Op → List Link → List Link
  | Op.addAfter pNew _, ms => pNew :: ms
  | Op.addBefore pNew _, ms => pNew :: ms
  | Op.remove pMember, ms => ms.erase pMember

/-- The operation is called as its contract asks, on the list with sentinel `H` and
current members `ms`: an inserted link is neither `H` nor a current member, the
position of an insert is `H` or a current member, a removed link is a current member. -/
def Op.Valid (H : Link) (ms : List Link) : Op → Prop
  | Op.addAfter pNew pPos => pNew ≠ H ∧ pNew ∉ ms ∧ (pPos = H ∨ pPos ∈ ms)
  | Op.addBefore pNew pPos => pNew ≠ H ∧ pNew ∉ ms ∧ (pPos = H ∨ pPos ∈ ms)
  | Op.remove pMember => pMember ∈ ms

instance (H : Link) (ms : List Link) (op : Op) : Decidable (op.Valid H ms) := by
  cases op <;> unfold Op.Valid <;> infer_instance

/-- The heap after a sequence of operations, applied in order. -/
def exec (h : Heap) : List Op → Heap
  | [] => h
  | op :: ops => exec (op.apply h) ops

/-- The current members after a sequence of operations. -/
def membersAfter (ms : List Link) : List Op → List Link
  | [] => ms
  | op :: ops => membersAfter (op.members ms) ops

/-- Every operation of the sequence is valid at the time it is applied. -/
def ValidSeq (H : Link) : List Link → List Op → Prop
  | _, [] => True
  | ms, op :: ops => op.Valid H ms ∧ ValidSeq H (op.members ms) ops

instance (H : Link) (ms : List Link) (ops : List Op) : Decidable (ValidSeq H ms ops) := by
  induction ops generalizing ms with
  | nil => unfold ValidSeq; infer_instance
  | cons op ops ih => unfold ValidSeq; infer_instance

instance (h : Heap) (a b : Link) : Decidable (Linked h a b) := by
  unfold Linked; infer_instance

/-- Decides `Path h l`, by the recursion of `Path`. -/
def decPath (h : Heap) : (l : List Link) → Decidable (Path h l)
  | [] => isTrue trivial
  | [_] => isTrue trivial
  | a :: b :: l => @instDecidableAnd _ _ (inferInstanceAs (Decidable (Linked h a b)))
      (decPath h (b :: l))

instance (h : Heap) (l : List Link) : Decidable (Path h l) := decPath h l

instance (h : Heap) (H : Link) (xs : List Link) : Decidable (WellFormed h H xs) := by
  unfold WellFormed; infer_instance

/-- The result of call number `k` (counted from 0) of the traversal of a client:
`pxlibDllFirst(H)`, then `pxlibDllNext(H, m)` on the link `m` returned by the call before.
A call that returned `NULL` ends the traversal: there is no later call (`none`). -/
def traversalCall (h : Heap) (H : Link) : Nat → Option Link
  | 0 => pxlibDllFirst H h
  | k + 1 =>
    match traversalCall h H k with
    | none => none
    | some m => pxlibDllNext H m h

/-- The loop `for (m = start; m != NULL; m = pxlibDllNext(H, m))` of a client, collecting
the links `m` it visits; `fuel` bounds the number of links visited, and `none` is
returned when the loop has not met `NULL` within that bound. -/
def traverseFrom (h : Heap) (H : Link) : Nat → Option Link → Option (List Link)
  | _, none => some []
  | 0, some _ => none
  | fuel + 1, some m => (traverseFrom h H fuel (pxlibDllNext H m h)).map (fun l => m :: l)

/-- The First/Next traversal of the list with sentinel `H`: the loop started at
`pxlibDllFirst(H)`. -/
def traverse (h : Heap) (H : Link) (fuel : Nat) : Option (List Link) :=
  traverseFrom h H fuel (pxlibDllFirst H h)

/-- `pxlibDllMemberInit` on each link of the sequence, in order. -/
def initAll : List Link → Heap → Heap
  | [], h => h
  | x :: xs, h => initAll xs (pxlibDllMemberInit x h)

/-- `pxlibDllAppend(H, x)` for each link `x` of the sequence, in order. -/
def appendAll (H : Link) : List Link → Heap → Heap
  | [], h => h
  | x :: xs, h => appendAll H xs (pxlibDllAppend H x h)

/-- `pxlibDllPrepend(H, x)` for each link `x` of the sequence, in order. -/
def prependAll (H : Link) : List Link → Heap → Heap
  | [], h => h
  | x :: xs, h => prependAll H xs (pxlibDllPrepend H x h)

/-- `pxlibDllGetMember(pMember, s, n)`:
`((s *)(((char *)(pMember)) - offsetof(s, n)))`, on addresses of `w` bits: the address
`pMember` less the byte offset `offset = offsetof(s, n)` of the field `n` in the
structure `s`, modulo `2 ^ w`.  The cast to `s *` does not change the address. -/
def pxlibDllGetMember (w : Nat) (pMember offset : Nat) : Nat :=
  (pMember + (2 ^ w - offset % 2 ^ w)) % 2 ^ w

/-- The loop `for (m = start; m != NULL; m = pxlibDllPrev(H, m))` of a client, collecting
the links `m` it visits; `fuel` bounds the number of links visited, and `none` is
returned when the loop has not met `NULL` within that bound. -/
def traverseBackFrom (h : Heap) (H : Link) : Nat → Option Link → Option (List Link)
  | _, none => some []
  | 0, some _ => none
  | fuel + 1, some m =>
    (traverseBackFrom h H fuel (pxlibDllPrev H m h)).map (fun l => m :: l)

/-- The Last/Previous traversal of the list with sentinel `H`: the loop started at
`pxlibDllLast(H)`. -/
def traverseBack (h : Heap) (H : Link) (fuel : Nat) : Option (List Link) :=
  traverseBackFrom h H fuel (pxlibDllLast H h)

/-- A public operation: `pxlibDllMemberInit(pMember)`, or one of the list operations. -/
inductive PublicOp where
  | init (pMember : Link)
  | list (op : Op)

/-- The heap after the public operation. -/
def PublicOp.apply : PublicOp → Heap → Heap
  | PublicOp.init pMember, h => pxlibDllMemberInit pMember h
  | PublicOp.list op, h => op.apply h

/-- The current members after the public operation: initializing a link that is not in
the list leaves them as they are. -/
def PublicOp.members : PublicOp → List Link → List Link
  | PublicOp.init _, ms => ms
  | PublicOp.list op, ms => op.members ms

/-- The removed links after the public operation, from the removed links `rs` before it:
the links that `pxlibDllRemove` took out of the list and that were neither initialized
nor inserted again since. -/
def PublicOp.removed : PublicOp → List Link → List Link
  | PublicOp.init pMember, rs => rs.filter (fun r => decide (r ≠ pMember))
  | PublicOp.list (Op.addAfter pNew _), rs => rs.filter (fun r => decide (r ≠ pNew))
  | PublicOp.list (Op.addBefore pNew _), rs => rs.filter (fun r => decide (r ≠ pNew))
  | PublicOp.list (Op.remove pMember), rs => pMember :: rs

/-- The public operation is called under its preconditions, on the list with sentinel `H`
and current members `ms`: the initialized link is fresh (not the sentinel in use, not a
member); a list operation is valid as in `Op.Valid`. -/
def PublicOp.Valid (H : Link) (ms : List Link) : PublicOp → Prop
  | PublicOp.init pMember => pMember ≠ H ∧ pMember ∉ ms
  | PublicOp.list op => op.Valid H ms

instance (H : Link) (ms : List Link) (op : PublicOp) : Decidable (op.Valid H ms) := by
  cases op <;> unfold PublicOp.Valid <;> infer_instance

/-- The heap after a sequence of public operations, applied in order. -/
def execPublic (h : Heap) : List PublicOp → Heap
  | [] => h
  | op :: ops => execPublic (op.apply h) ops

/-- The current members after a sequence of public operations. -/
def membersAfterPublic (ms : List Link) : List PublicOp → List Link
  | [] => ms
  | op :: ops => membersAfterPublic (op.members ms) ops

/-- The removed links after a sequence of public operations. -/
def removedAfter (rs : List Link) : List PublicOp → List Link
  | [] => rs
  | op :: ops => removedAfter (op.removed rs) ops

/-- Every public operation of the sequence is valid at the time it is applied. -/
def ValidPublicSeq (H : Link) : List Link → List PublicOp → Prop
  | _, [] => True
  | ms, op :: ops => op.Valid H ms ∧ ValidPublicSeq H (op.members ms) ops

instance (H : Link) (ms : List Link) (ops : List PublicOp) :
    Decidable (ValidPublicSeq H ms ops) := by
  induction ops generalizing ms with
  | nil => unfold ValidPublicSeq; infer_instance
  | cons op ops ih => unfold ValidPublicSeq; infer_instance

/-- Every link that is neither the sentinel `H`, nor a current member, nor a removed link
is isolated: both its fields point to itself. -/
def OthersIsolated (h : Heap) (H : Link) (ms rs : List Link) : Prop :=
  ∀ l, l ∉ H :: ms → l ∉ rs → h.pNext l = l ∧ h.pPrevious l = l

/-! ## Supporting lemmas -/

theorem path_cons_cons (h : Heap) (a b : Link) (l : List Link) :
    Path h (a :: b :: l) ↔ Linked h a b ∧ Path h (b :: l) := Iff.rfl

theorem path_iff_chain (h : Heap) (l : List Link) : Path h l ↔ List.Chain' (Linked h) l := by
  induction l with
  | nil => simp [Path]
  | cons a l ih =>
    cases l with
    | nil => simp [Path]
    | cons b l => rw [path_cons_cons, List.chain'_cons, ih]

theorem path_split (h : Heap) (l₁ l₂ : List Link) (a : Link) :
    Path h (l₁ ++ a :: l₂) ↔ Path h (l₁ ++ [a]) ∧ Path h (a :: l₂) := by
  simp only [path_iff_chain]; exact List.chain'_split

theorem addBefore_mirror (new pos : Link) (h : Heap) :
    pxlibDllAddBefore new pos h = (pxlibDllAddAfter new pos h.mirror).mirror := rfl

theorem mirror_mirror (h : Heap) : h.mirror.mirror = h := rfl

theorem linked_mirror (h : Heap) (a b : Link) : Linked h.mirror a b ↔ Linked h b a := by
  simp [Linked, Heap.mirror, and_comm]

theorem path_mirror (h : Heap) (l : List Link) : Path h.mirror l ↔ Path h l.reverse := by
  rw [path_iff_chain, path_iff_chain, List.chain'_reverse]
  apply List.Chain'.iff
  intro a b
  simp [flip, linked_mirror]

theorem path_congr {h h' : Heap} {l : List Link}
    (hn : ∀ x ∈ l.dropLast, h'.pNext x = h.pNext x)
    (hp : ∀ x ∈ l.tail, h'.pPrevious x = h.pPrevious x)
    (hl : Path h l) : Path h' l := by
  induction l with
  | nil => trivial
  | cons a l ih =>
    cases l with
    | nil => trivial
    | cons b l =>
      rw [path_cons_cons] at hl ⊢
      refine ⟨?_, ih ?_ ?_ hl.2⟩
      · have h1 := hn a (by simp)
        have h2 := hp b (by simp)
        simpa [Linked, h1, h2] using hl.1
      · intro x hx
        exact hn x (by simp [List.dropLast_cons₂]; right; exact hx)
      · intro x hx
        exact hp x (by simpa using List.mem_of_mem_tail hx)

theorem addAfter_pNext (h : Heap) (new pos l : Link) :
    (pxlibDllAddAfter new pos h).pNext l =
      if l = pos then new else if l = new then h.pNext pos else h.pNext l := by
  simp [pxlibDllAddAfter, setNext, setPrevious]

theorem addAfter_pPrevious (h : Heap) (new pos l : Link) :
    (pxlibDllAddAfter new pos h).pPrevious l =
      if l = h.pNext pos then new else if l = new then pos else h.pPrevious l := by
  simp [pxlibDllAddAfter, setNext, setPrevious]

theorem remove_pNext (h : Heap) (m l : Link) :
    (pxlibDllRemove m h).pNext l = if l = h.pPrevious m then h.pNext m else h.pNext l := by
  simp [pxlibDllRemove, setNext, setPrevious]

theorem remove_pPrevious (h : Heap) (m l : Link) :
    (pxlibDllRemove m h).pPrevious l =
      if l = h.pNext m then h.pPrevious m else h.pPrevious l := by
  simp [pxlibDllRemove, setNext, setPrevious]

theorem path_addAfter {h : Heap} (pre t : List Link) (pos S new : Link)
    (hp : Path h (pre ++ pos :: S :: t))
    (hn1 : new ∉ pre) (hn2 : new ≠ pos) (hn3 : new ≠ S) (hn4 : new ∉ t)
    (hpos1 : pos ∉ pre) (hpos2 : pos ∉ (S :: t).dropLast)
    (hS1 : S ∉ (pre ++ [pos]).tail) (hS2 : S ∉ t) :
    Path (pxlibDllAddAfter new pos h) (pre ++ pos :: new :: S :: t) := by
  rw [path_split, path_cons_cons] at hp
  obtain ⟨hp1, hlk, hp2⟩ := hp
  have hS : h.pNext pos = S := hlk.1
  rw [path_split, path_cons_cons, path_cons_cons]
  refine ⟨path_congr ?_ ?_ hp1, ?_, ?_, path_congr ?_ ?_ hp2⟩
  · intro x hx
    rw [List.dropLast_concat] at hx
    have h1 : x ≠ pos := fun e => hpos1 (e ▸ hx)
    have h2 : x ≠ new := fun e => hn1 (e ▸ hx)
    simp [addAfter_pNext, h1, h2]
  · intro x hx
    have h1 : x ≠ S := fun e => hS1 (e ▸ hx)
    have h2 : x ≠ new := by
      intro e
      have := List.mem_of_mem_tail hx
      simp [e, hn1, hn2] at this
    simp [addAfter_pPrevious, hS, h1, h2]
  · simp [Linked, addAfter_pNext, addAfter_pPrevious, hS, hn3]
  · simp [Linked, addAfter_pNext, addAfter_pPrevious, hS, hn2]
  · intro x hx
    have h1 : x ≠ pos := fun e => hpos2 (e ▸ hx)
    have h2 : x ≠ new := by
      intro e
      have := List.dropLast_subset _ hx
      simp [e, hn3, hn4] at this
    simp [addAfter_pNext, h1, h2]
  · intro x hx
    have hx : x ∈ t := hx
    have h1 : x ≠ S := fun e => hS2 (e ▸ hx)
    have h2 : x ≠ new := fun e => hn4 (e ▸ hx)
    simp [addAfter_pPrevious, hS, h1, h2]

theorem path_remove {h : Heap} (pre suf : List Link) (P m N : Link)
    (hp : Path h (pre ++ P :: m :: N :: suf))
    (hP1 : P ∉ pre) (hP2 : P ∉ (N :: suf).dropLast)
    (hN1 : N ∉ (pre ++ [P]).tail) (hN2 : N ∉ suf) :
    Path (pxlibDllRemove m h) (pre ++ P :: N :: suf) := by
  rw [path_split, path_cons_cons, path_cons_cons] at hp
  obtain ⟨hp1, hlk1, hlk2, hp2⟩ := hp
  have hP : h.pPrevious m = P := hlk1.2
  have hN : h.pNext m = N := hlk2.1
  rw [path_split, path_cons_cons]
  refine ⟨path_congr ?_ ?_ hp1, ?_, path_congr ?_ ?_ hp2⟩
  · intro x hx
    rw [List.dropLast_concat] at hx
    have h1 : x ≠ P := fun e => hP1 (e ▸ hx)
    simp [remove_pNext, hP, h1]
  · intro x hx
    have h1 : x ≠ N := fun e => hN1 (e ▸ hx)
    simp [remove_pPrevious, hN, h1]
  · simp [Linked, remove_pNext, remove_pPrevious, hP, hN]
  · intro x hx
    have h1 : x ≠ P := fun e => hP2 (e ▸ hx)
    simp [remove_pNext, hP, h1]
  · intro x hx
    have hx : x ∈ suf := hx
    have h1 : x ≠ N := fun e => hN2 (e ▸ hx)
    simp [remove_pPrevious, hN, h1]

theorem wf_listInit (h : Heap) (H : Link) : WellFormed (pxlibDllListInit H h) H [] := by
  refine ⟨by simp, ?_⟩
  show Path _ [H, H]
  simp [Path, Linked, pxlibDllListInit, pxlibDllMemberInit, setNext, setPrevious]

theorem wf_mirror (h : Heap) (H : Link) (xs : List Link) :
    WellFormed h.mirror H xs.reverse ↔ WellFormed h H xs := by
  unfold WellFormed
  rw [path_mirror]
  simp

theorem wf_addAfter_head {h : Heap} {H new : Link} {xs : List Link}
    (hwf : WellFormed h H xs) (hnew : new ∉ H :: xs) :
    WellFormed (pxlibDllAddAfter new H h) H (new :: xs) := by
  obtain ⟨hnd, hp⟩ := hwf
  simp only [List.mem_cons, not_or] at hnew
  refine ⟨?_, ?_⟩
  · simp only [List.nodup_cons, List.mem_cons, not_or] at hnd ⊢
    exact ⟨⟨fun e => hnew.1 e.symm, hnd.1⟩, hnew.2, hnd.2⟩
  · cases xs with
    | nil =>
      exact path_addAfter [] [] H H new hp (by simp) hnew.1 hnew.1 (by simp)
        (by simp) (by simp) (by simp) (by simp)
    | cons b bs =>
      simp only [List.nodup_cons, List.mem_cons, not_or] at hnd hnew
      refine path_addAfter [] (bs ++ [H]) H b new hp (by simp) hnew.1 hnew.2.1 ?_
        (by simp) ?_ (by simp) ?_
      · simp [hnew.2.2, hnew.1]
      · simp [List.dropLast_cons_of_ne_nil, hnd.1.1, hnd.1.2]
      · simp [hnd.2.1, Ne.symm hnd.1.1]

theorem wf_addAfter_mem {h : Heap} {H new pos : Link} {as bs : List Link}
    (hwf : WellFormed h H (as ++ pos :: bs)) (hnew : new ∉ H :: (as ++ pos :: bs)) :
    WellFormed (pxlibDllAddAfter new pos h) H (as ++ pos :: new :: bs) := by
  obtain ⟨hnd, hp⟩ := hwf
  simp only [List.mem_cons, List.mem_append, not_or] at hnew
  refine ⟨?_, ?_⟩
  · simp only [List.nodup_cons, List.nodup_append, List.mem_cons, List.mem_append,
      not_or] at hnd ⊢
    simp only [List.Disjoint, List.mem_cons] at hnd ⊢
    aesop
  · simp only [List.nodup_cons, List.nodup_append, List.mem_cons, List.mem_append,
      not_or, List.Disjoint] at hnd
    have hpa : pos ∉ as := fun hx => hnd.2.2.2 hx (Or.inl rfl)
    cases bs with
    | nil =>
      have := path_addAfter (H :: as) [] pos H new
        (by simpa using hp) (by simp [hnew.1, hnew.2.1]) hnew.2.2.1 hnew.1 (by simp)
        (by simp [Ne.symm hnd.1.2.1, hpa]) (by simp) (by simp [hnd.1.1, hnd.1.2.1])
        (by simp)
      simpa using this
    | cons b bs =>
      simp only [List.mem_cons, List.nodup_cons, not_or] at hnd hnew
      have hba : b ∉ as := fun hx => hnd.2.2.2 hx (Or.inr (Or.inl rfl))
      have := path_addAfter (H :: as) (bs ++ [H]) pos b new (by simpa using hp) (by simp [hnew.1, hnew.2.1]) hnew.2.2.1
        hnew.2.2.2.1 (by simp [hnew.2.2.2.2, hnew.1])
        (by simp [Ne.symm hnd.1.2.1, hpa])
        (by simp [List.dropLast_cons_of_ne_nil, hnd.2.2.1.1.1, hnd.2.2.1.1.2])
        (by simp [hba, Ne.symm hnd.2.2.1.1.1])
        (by simp [hnd.2.2.1.2.1, Ne.symm hnd.1.2.2.1])
      simpa using this

theorem wf_addBefore_head {h : Heap} {H new : Link} {xs : List Link}
    (hwf : WellFormed h H xs) (hnew : new ∉ H :: xs) :
    WellFormed (pxlibDllAddBefore new H h) H (xs ++ [new]) := by
  rw [addBefore_mirror, ← wf_mirror, mirror_mirror]
  have := @wf_addAfter_head h.mirror H new xs.reverse ((wf_mirror h H xs).2 hwf)
    (by simpa using hnew)
  simpa using this

theorem wf_addBefore_mem {h : Heap} {H new pos : Link} {as bs : List Link}
    (hwf : WellFormed h H (as ++ pos :: bs)) (hnew : new ∉ H :: (as ++ pos :: bs)) :
    WellFormed (pxlibDllAddBefore new pos h) H (as ++ new :: pos :: bs) := by
  rw [addBefore_mirror, ← wf_mirror, mirror_mirror]
  have := @wf_addAfter_mem h.mirror H new pos bs.reverse as.reverse
    (by simpa using (wf_mirror h H (as ++ pos :: bs)).2 hwf)
    (by
      simp only [List.mem_cons, List.mem_append, List.mem_reverse, not_or] at hnew ⊢
      exact ⟨hnew.1, hnew.2.2.2, hnew.2.2.1, hnew.2.1⟩)
  simpa using this

theorem wf_remove_split {h : Heap} {H m : Link} {as bs : List Link}
    (hwf : WellFormed h H (as ++ m :: bs)) :
    WellFormed (pxlibDllRemove m h) H (as ++ bs) := by
  obtain ⟨hnd, hp⟩ := hwf
  refine ⟨?_, ?_⟩
  · have : (H :: (as ++ bs)).Sublist (H :: (as ++ m :: bs)) := by
      apply List.Sublist.cons₂
      exact List.Sublist.append_left (List.sublist_cons_self m bs) as
    exact hnd.sublist this
  · simp only [List.nodup_cons, List.nodup_append, List.mem_cons, List.mem_append,
      not_or, List.Disjoint] at hnd
    rcases List.eq_nil_or_concat as with rfl | ⟨as', p, rfl⟩
    · cases bs with
      | nil =>
        exact path_remove [] [] H m H hp (by simp) (by simp)
          (by simp) (by simp)
      | cons b bs =>
        simp only [List.mem_cons, List.nodup_cons, not_or] at hnd
        exact path_remove [] (bs ++ [H]) H m b hp (by simp)
          (by simp [List.dropLast_cons_of_ne_nil, hnd.1.2.2.1, hnd.1.2.2.2]) (by simp)
          (by simp [hnd.2.2.1.2.1, Ne.symm hnd.1.2.2.1])
    · rw [List.concat_eq_append] at hp hnd ⊢
      simp only [List.mem_append, List.mem_singleton, List.nodup_append, List.nodup_cons,
        not_or, List.Disjoint] at hnd
      have hpa : p ∉ as' := fun hx => hnd.2.1.2.2 hx rfl
      cases bs with
      | nil =>
        have := @path_remove h (H :: as') [] p m H
          (by simpa using hp) (by simp [Ne.symm hnd.1.1.2, hpa]) (by simp)
          (by simp [hnd.1.1.1, hnd.1.1.2]) (by simp)
        simpa using this
      | cons b bs =>
        simp only [List.mem_cons, List.nodup_cons, not_or] at hnd
        have hb1 : b ∉ as' := fun hx => hnd.2.2.2 (Or.inl hx) (Or.inr (Or.inl rfl))
        have hb2 : b ≠ p := fun e => hnd.2.2.2 (Or.inr e) (Or.inr (Or.inl rfl))
        have hp1 : p ∉ bs := fun hx => hnd.2.2.2 (Or.inr rfl) (Or.inr (Or.inr hx))
        have := @path_remove h (H :: as') (bs ++ [H]) p m b (by simpa using hp) (by simp [Ne.symm hnd.1.1.2, hpa])
          (by simp [List.dropLast_cons_of_ne_nil, Ne.symm hb2, hp1])
          (by simp [hb1, hb2])
          (by simp [hnd.2.2.1.2.1, Ne.symm hnd.1.2.2.1])
        simpa using this

theorem wf_remove {h : Heap} {H m : Link} {xs : List Link}
    (hwf : WellFormed h H xs) (hm : m ∈ xs) :
    WellFormed (pxlibDllRemove m h) H (xs.erase m) := by
  obtain ⟨as, bs, rfl, hma⟩ := List.eq_append_cons_of_mem hm
  have herase : (as ++ m :: bs).erase m = as ++ bs := by
    rw [List.erase_append_right _ hma, List.erase_cons_head]
  rw [herase]
  exact wf_remove_split hwf

theorem wf_step {h : Heap} {H : Link} {xs ms : List Link} {op : Op}
    (hwf : WellFormed h H xs) (hms : ms.Nodup) (hmem : ∀ x, x ∈ xs ↔ x ∈ ms)
    (hv : op.Valid H ms) :
    ∃ xs', WellFormed (op.apply h) H xs' ∧ (op.members ms).Nodup ∧
      ∀ x, x ∈ xs' ↔ x ∈ op.members ms := by
  cases op with
  | addAfter pNew pPos =>
    obtain ⟨h1, h2, h3⟩ := hv
    have hnd : (pNew :: ms).Nodup := List.nodup_cons.2 ⟨h2, hms⟩
    have hnew : pNew ∉ H :: xs := by simp [h1, hmem, h2]
    rcases h3 with rfl | h3
    · exact ⟨pNew :: xs, wf_addAfter_head hwf hnew, hnd, by simp [Op.members, hmem]⟩
    · obtain ⟨as, bs, rfl⟩ := List.append_of_mem ((hmem _).2 h3)
      refine ⟨_, wf_addAfter_mem hwf hnew, hnd, ?_⟩
      intro x
      simp only [Op.members, List.mem_cons, ← hmem, List.mem_append]
      tauto
  | addBefore pNew pPos =>
    obtain ⟨h1, h2, h3⟩ := hv
    have hnd : (pNew :: ms).Nodup := List.nodup_cons.2 ⟨h2, hms⟩
    have hnew : pNew ∉ H :: xs := by simp [h1, hmem, h2]
    rcases h3 with rfl | h3
    · exact ⟨xs ++ [pNew], wf_addBefore_head hwf hnew, hnd, by
        simp [Op.members, hmem, or_comm]⟩
    · obtain ⟨as, bs, rfl⟩ := List.append_of_mem ((hmem _).2 h3)
      refine ⟨_, wf_addBefore_mem hwf hnew, hnd, ?_⟩
      intro x
      simp only [Op.members, List.mem_cons, ← hmem, List.mem_append]
      tauto
  | remove pMember =>
    have hv : pMember ∈ ms := hv
    have hxs : xs.Nodup := (List.nodup_cons.1 hwf.1).2
    refine ⟨_, wf_remove hwf ((hmem _).2 hv), hms.erase _, ?_⟩
    intro x
    simp only [Op.members, hxs.mem_erase_iff, hms.mem_erase_iff, hmem]

theorem wf_exec {H : Link} (ops : List Op) :
    ∀ {h : Heap} {xs ms : List Link}, WellFormed h H xs → ms.Nodup →
      (∀ x, x ∈ xs ↔ x ∈ ms) → ValidSeq H ms ops →
      ∃ xs', WellFormed (exec h ops) H xs' ∧ (membersAfter ms ops).Nodup ∧
        ∀ x, x ∈ xs' ↔ x ∈ membersAfter ms ops := by
  induction ops with
  | nil => intro h xs ms hwf hms hmem _; exact ⟨xs, hwf, hms, hmem⟩
  | cons op ops ih =>
    intro h xs ms hwf hms hmem hv
    obtain ⟨xs', hwf', hms', hmem'⟩ := wf_step hwf hms hmem hv.1
    exact ih hwf' hms' hmem' hv.2

theorem validSeq_take {H : Link} (ops : List Op) :
    ∀ (ms : List Link) (k : Nat), ValidSeq H ms ops → ValidSeq H ms (ops.take k) := by
  induction ops with
  | nil => intro ms k _; simp [ValidSeq]
  | cons op ops ih =>
    intro ms k hv
    cases k with
    | zero => simp [ValidSeq]
    | succ k => exact ⟨hv.1, ih _ k hv.2⟩

/-- Every state reached from an initialized sentinel by valid operations is well-formed,
and its members are the links inserted and not removed since. -/
theorem wf_reachable (h0 : Heap) (H : Link) (ops : List Op) (hv : ValidSeq H [] ops) :
    ∃ xs, WellFormed (exec (pxlibDllListInit H h0) ops) H xs ∧
      ∀ x, x ∈ xs ↔ x ∈ membersAfter [] ops := by
  obtain ⟨xs, h1, _, h3⟩ := wf_exec ops (wf_listInit h0 H) List.nodup_nil (fun _ => Iff.rfl) hv
  exact ⟨xs, h1, h3⟩

theorem path_next_of_mem {h : Heap} {l : List Link} (hl : Path h l) {a : Link}
    (ha : a ∈ l.dropLast) : Linked h a (h.pNext a) ∧ h.pNext a ∈ l.tail := by
  induction l with
  | nil => simp at ha
  | cons x l ih =>
    cases l with
    | nil => simp at ha
    | cons y l =>
      rw [path_cons_cons] at hl
      rw [List.dropLast_cons₂, List.mem_cons] at ha
      rcases ha with rfl | ha
      · have : h.pNext a = y := hl.1.1
        rw [this]
        exact ⟨hl.1, by simp⟩
      · obtain ⟨h1, h2⟩ := ih hl.2 ha
        exact ⟨h1, List.mem_of_mem_tail h2⟩

theorem path_prev_of_mem {h : Heap} {l : List Link} (hl : Path h l) {a : Link}
    (ha : a ∈ l.tail) : Linked h (h.pPrevious a) a ∧ h.pPrevious a ∈ l.dropLast := by
  have hm : Path h.mirror l.reverse := by rw [path_mirror]; simpa using hl
  have := path_next_of_mem hm (a := a) (by simpa using ha)
  rw [linked_mirror] at this
  simpa [Heap.mirror] using this

theorem wf_next {h : Heap} {H : Link} {xs : List Link} (hwf : WellFormed h H xs) {a : Link}
    (ha : a ∈ H :: xs) : h.pPrevious (h.pNext a) = a ∧ h.pNext a ∈ xs ++ [H] := by
  have := path_next_of_mem hwf.2 (a := a) (by rw [List.dropLast_concat]; exact ha)
  exact ⟨this.1.2, by simpa using this.2⟩

theorem wf_prev {h : Heap} {H : Link} {xs : List Link} (hwf : WellFormed h H xs) {a : Link}
    (ha : a ∈ H :: xs) : h.pNext (h.pPrevious a) = a ∧ h.pPrevious a ∈ H :: xs := by
  have := path_prev_of_mem hwf.2 (a := a) (by simpa [or_comm] using ha)
  exact ⟨this.1.1, by rw [List.dropLast_concat] at this; exact this.2⟩

theorem path_iterate {h : Heap} (l : List Link) :
    ∀ (a b : Link), Path h (a :: l ++ [b]) → h.pNext^[l.length + 1] a = b := by
  induction l with
  | nil => intro a b hp; exact hp.1.1
  | cons x l ih =>
    intro a b hp
    have hx : h.pNext a = x := hp.1.1
    rw [List.length_cons, Function.iterate_succ_apply, hx]
    exact ih x b hp.2

theorem wf_circular_next {h : Heap} {H : Link} {xs : List Link} (hwf : WellFormed h H xs)
    {a : Link} (ha : a ∈ H :: xs) : ∃ n, 0 < n ∧ h.pNext^[n] a = a := by
  obtain ⟨as, bs, hab⟩ := List.append_of_mem ha
  have hp : Path h (as ++ a :: (bs ++ [H])) := by
    have := hwf.2
    rw [hab] at this
    simpa using this
  rw [path_split] at hp
  have h2 : h.pNext^[bs.length + 1] a = H := path_iterate bs a H hp.2
  cases as with
  | nil =>
    have : a = H := by
      have := congrArg List.head? hab
      simpa using this.symm
    exact ⟨bs.length + 1, Nat.succ_pos _, by rw [h2, this]⟩
  | cons x as =>
    have hx : x = H := by
      have := congrArg List.head? hab
      simpa using this.symm
    have h1 : h.pNext^[as.length + 1] H = a := path_iterate as H a (by simpa [hx] using hp.1)
    refine ⟨(as.length + 1) + (bs.length + 1), by omega, ?_⟩
    rw [Function.iterate_add_apply, h2, h1]

theorem wf_circular_prev {h : Heap} {H : Link} {xs : List Link} (hwf : WellFormed h H xs)
    {a : Link} (ha : a ∈ H :: xs) : ∃ n, 0 < n ∧ h.pPrevious^[n] a = a :=
  @wf_circular_next h.mirror H xs.reverse ((wf_mirror h H xs).2 hwf) a
    (by simpa using ha)

theorem wf_symmetric {h : Heap} {H : Link} {xs : List Link} (hwf : WellFormed h H xs)
    {a b : Link} (ha : a ∈ H :: xs) (hb : b ∈ H :: xs) :
    h.pNext a = b ↔ h.pPrevious b = a := by
  constructor
  · intro e; rw [← e]; exact (wf_next hwf ha).1
  · intro e; rw [← e]; exact (wf_prev hwf hb).1

theorem path_next_head {h : Heap} {H a : Link} {xs : List Link}
    (hp : Path h (a :: xs ++ [H])) (hH : H ∉ xs) : pxlibDllNext H a h = xs.head? := by
  cases xs with
  | nil =>
    have : h.pNext a = H := hp.1.1
    simp [pxlibDllNext, this]
  | cons x xs =>
    have : h.pNext a = x := hp.1.1
    have hx : x ≠ H := fun e => hH (by simp [e])
    simp [pxlibDllNext, this, hx]

theorem path_traverseFrom {h : Heap} {H : Link} (xs : List Link) :
    ∀ (a : Link) (fuel : Nat), Path h (a :: xs ++ [H]) → H ∉ xs → xs.length ≤ fuel →
      traverseFrom h H fuel xs.head? = some xs := by
  induction xs with
  | nil => intro a fuel _ _ _; simp [traverseFrom]
  | cons x xs ih =>
    intro a fuel hp hH hf
    cases fuel with
    | zero => simp at hf
    | succ fuel =>
      have hH2 : H ∉ xs := fun hx => hH (List.mem_cons_of_mem _ hx)
      have hp2 : Path h (x :: xs ++ [H]) := hp.2
      simp only [List.head?_cons, traverseFrom]
      rw [path_next_head hp2 hH2, ih x fuel hp2 hH2 (by simpa using hf)]
      rfl

theorem path_traverseFrom_none {h : Heap} {H : Link} (xs : List Link) :
    ∀ (a : Link) (fuel : Nat), Path h (a :: xs ++ [H]) → H ∉ xs → fuel < xs.length →
      traverseFrom h H fuel xs.head? = none := by
  induction xs with
  | nil => intro a fuel _ _ hf; simp at hf
  | cons x xs ih =>
    intro a fuel hp hH hf
    cases fuel with
    | zero => simp [traverseFrom]
    | succ fuel =>
      have hH2 : H ∉ xs := fun hx => hH (List.mem_cons_of_mem _ hx)
      have hp2 : Path h (x :: xs ++ [H]) := hp.2
      simp only [List.head?_cons, traverseFrom]
      rw [path_next_head hp2 hH2, ih x fuel hp2 hH2 (by simpa using hf)]
      rfl

theorem wf_not_mem {h : Heap} {H : Link} {xs : List Link} (hwf : WellFormed h H xs) :
    H ∉ xs := (List.nodup_cons.1 hwf.1).1

theorem wf_traverse {h : Heap} {H : Link} {xs : List Link} (hwf : WellFormed h H xs)
    {fuel : Nat} (hf : xs.length ≤ fuel) : traverse h H fuel = some xs := by
  unfold traverse pxlibDllFirst
  rw [path_next_head hwf.2 (wf_not_mem hwf)]
  exact path_traverseFrom xs H fuel hwf.2 (wf_not_mem hwf) hf

theorem wf_traverse_none {h : Heap} {H : Link} {xs : List Link} (hwf : WellFormed h H xs)
    {fuel : Nat} (hf : fuel < xs.length) : traverse h H fuel = none := by
  unfold traverse pxlibDllFirst
  rw [path_next_head hwf.2 (wf_not_mem hwf)]
  exact path_traverseFrom_none xs H fuel hwf.2 (wf_not_mem hwf) hf

/-- The traversal of a well-formed list determines its members and their order. -/
theorem wf_traverse_unique {h : Heap} {H : Link} {xs ys : List Link}
    (hwf : WellFormed h H xs) {fuel : Nat} (ht : traverse h H fuel = some ys) : ys = xs := by
  rcases Nat.lt_or_ge fuel xs.length with hf | hf
  · rw [wf_traverse_none hwf hf] at ht; cases ht
  · rw [wf_traverse hwf hf] at ht; exact (Option.some.inj ht).symm

theorem path_next_get {h : Heap} {H : Link} (xs : List Link) :
    ∀ (a : Link) (k : Nat) (m : Link), Path h (a :: xs ++ [H]) → H ∉ xs →
      xs[k]? = some m → pxlibDllNext H m h = xs[k + 1]? := by
  induction xs with
  | nil => intro a k m _ _ hk; simp at hk
  | cons x xs ih =>
    intro a k m hp hH hk
    have hH2 : H ∉ xs := fun hx => hH (List.mem_cons_of_mem _ hx)
    have hp2 : Path h (x :: xs ++ [H]) := hp.2
    cases k with
    | zero =>
      have : x = m := by simpa using hk
      subst this
      rw [path_next_head hp2 hH2]
      cases xs <;> simp
    | succ k =>
      have hk2 : xs[k]? = some m := by simpa using hk
      simpa using ih x k m hp2 hH2 hk2

theorem wf_traversalCall {h : Heap} {H : Link} {xs : List Link} (hwf : WellFormed h H xs)
    (k : Nat) : traversalCall h H k = xs[k]? := by
  induction k with
  | zero =>
    simp only [traversalCall, pxlibDllFirst]
    rw [path_next_head hwf.2 (wf_not_mem hwf)]
    cases xs <;> simp
  | succ k ih =>
    simp only [traversalCall, ih]
    cases hk : xs[k]? with
    | none =>
      have : xs.length ≤ k := by simpa using hk
      simp [List.getElem?_eq_none (show xs.length ≤ k + 1 by omega)]
    | some m => exact path_next_get xs H k m hwf.2 (wf_not_mem hwf) hk

theorem wf_memberInit {h : Heap} {H x : Link} {xs : List Link} (hwf : WellFormed h H xs)
    (hx : x ∉ H :: xs) : WellFormed (pxlibDllMemberInit x h) H xs := by
  refine ⟨hwf.1, path_congr ?_ ?_ hwf.2⟩
  · intro y hy
    rw [List.dropLast_concat] at hy
    have : y ≠ x := fun e => hx (e ▸ hy)
    simp [pxlibDllMemberInit, setNext, setPrevious, this]
  · intro y hy
    have hy2 : y ∈ H :: xs := by
      have : y ∈ xs ++ [H] := by simpa using hy
      simpa [or_comm] using this
    have : y ≠ x := fun e => hx (e ▸ hy2)
    simp [pxlibDllMemberInit, setNext, setPrevious, this]

theorem wf_initAll {H : Link} (ys : List Link) :
    ∀ {h : Heap}, WellFormed h H [] → H ∉ ys → WellFormed (initAll ys h) H [] := by
  induction ys with
  | nil => intro h hwf _; exact hwf
  | cons y ys ih =>
    intro h hwf hH
    simp only [List.mem_cons, not_or] at hH
    exact ih (wf_memberInit hwf (by simpa using Ne.symm hH.1)) hH.2

theorem wf_appendAll {H : Link} (xs : List Link) :
    ∀ {h : Heap} {ys : List Link}, WellFormed h H ys → xs.Nodup →
      (∀ x ∈ xs, x ∉ H :: ys) → WellFormed (appendAll H xs h) H (ys ++ xs) := by
  induction xs with
  | nil => intro h ys hwf _ _; simpa [appendAll] using hwf
  | cons x xs ih =>
    intro h ys hwf hnd hdis
    rw [List.nodup_cons] at hnd
    have h1 : WellFormed (pxlibDllAppend H x h) H (ys ++ [x]) :=
      wf_addBefore_head hwf (hdis x (List.mem_cons_self _ _))
    have := ih h1 hnd.2 (by
      intro z hz
      have hz1 := hdis z (List.mem_cons_of_mem _ hz)
      have hz2 : z ≠ x := fun e => hnd.1 (e ▸ hz)
      simp only [List.mem_cons, not_or] at hz1
      simp [hz1.1, hz1.2, hz2])
    simpa [appendAll] using this

theorem wf_prependAll {H : Link} (xs : List Link) :
    ∀ {h : Heap} {ys : List Link}, WellFormed h H ys → xs.Nodup →
      (∀ x ∈ xs, x ∉ H :: ys) → WellFormed (prependAll H xs h) H (xs.reverse ++ ys) := by
  induction xs with
  | nil => intro h ys hwf _ _; simpa [prependAll] using hwf
  | cons x xs ih =>
    intro h ys hwf hnd hdis
    rw [List.nodup_cons] at hnd
    have h1 : WellFormed (pxlibDllPrepend H x h) H (x :: ys) :=
      wf_addAfter_head hwf (hdis x (List.mem_cons_self _ _))
    have := ih h1 hnd.2 (by
      intro z hz
      have hz1 := hdis z (List.mem_cons_of_mem _ hz)
      have hz2 : z ≠ x := fun e => hnd.1 (e ▸ hz)
      simp only [List.mem_cons, not_or] at hz1 ⊢
      exact ⟨hz1.1, hz2, hz1.2⟩)
    simpa [prependAll] using this

theorem wf_appended (h0 : Heap) (H : Link) (xs : List Link) (hnd : xs.Nodup) (hH : H ∉ xs) :
    WellFormed (appendAll H xs (initAll xs (pxlibDllListInit H h0))) H xs := by
  have := wf_appendAll xs (wf_initAll xs (wf_listInit h0 H) hH) hnd (by
    intro x hx
    have : x ≠ H := fun e => hH (e ▸ hx)
    simpa using this)
  simpa using this

theorem wf_prepended (h0 : Heap) (H : Link) (xs : List Link) (hnd : xs.Nodup) (hH : H ∉ xs) :
    WellFormed (prependAll H xs (initAll xs (pxlibDllListInit H h0))) H xs.reverse := by
  have := wf_prependAll xs (wf_initAll xs (wf_listInit h0 H) hH) hnd (by
    intro x hx
    have : x ≠ H := fun e => hH (e ▸ hx)
    simpa using this)
  simpa using this

theorem wf_iterate_sentinel {h : Heap} {H : Link} {xs : List Link} (hwf : WellFormed h H xs)
    {a : Link} (ha : a ∈ H :: xs) : ∃ n, h.pNext^[n + 1] a = H := by
  obtain ⟨as, bs, hab⟩ := List.append_of_mem ha
  have hp : Path h (as ++ a :: (bs ++ [H])) := by
    have := hwf.2
    rw [hab] at this
    simpa using this
  rw [path_split] at hp
  exact ⟨bs.length, path_iterate bs a H hp.2⟩

theorem wf_next_ne_self {h : Heap} {H : Link} {xs : List Link} (hwf : WellFormed h H xs)
    {m : Link} (hm : m ∈ xs) : h.pNext m ≠ m := by
  intro e
  obtain ⟨n, hn⟩ := wf_iterate_sentinel hwf (List.mem_cons_of_mem H hm)
  rw [Function.iterate_fixed e] at hn
  exact wf_not_mem hwf (hn ▸ hm)

theorem wf_prev_ne_self {h : Heap} {H : Link} {xs : List Link} (hwf : WellFormed h H xs)
    {m : Link} (hm : m ∈ xs) : h.pPrevious m ≠ m :=
  @wf_next_ne_self h.mirror H xs.reverse ((wf_mirror h H xs).2 hwf) m (by simpa using hm)

theorem wf_empty_iff {h : Heap} {H : Link} {xs : List Link} (hwf : WellFormed h H xs) :
    h.pNext H = H ↔ xs = [] := by
  cases xs with
  | nil => simpa using hwf.2.1.1
  | cons x xs =>
    have h1 : h.pNext H = x := hwf.2.1.1
    have h2 : x ≠ H := fun e => wf_not_mem hwf (by simp [e])
    simp [h1, h2]

theorem addBefore_pPrevious (h : Heap) (new pos l : Link) :
    (pxlibDllAddBefore new pos h).pPrevious l =
      if l = pos then new else if l = new then h.pPrevious pos else h.pPrevious l := by
  rw [addBefore_mirror]
  exact addAfter_pNext h.mirror new pos l

theorem addBefore_pNext (h : Heap) (new pos l : Link) :
    (pxlibDllAddBefore new pos h).pNext l =
      if l = h.pPrevious pos then new else if l = new then pos else h.pNext l := by
  rw [addBefore_mirror]
  exact addAfter_pPrevious h.mirror new pos l

theorem path_next_unique {h h' : Heap} {l : List Link} (hl : Path h l) (hl' : Path h' l)
    {a : Link} (ha : a ∈ l.dropLast) : h'.pNext a = h.pNext a := by
  induction l with
  | nil => simp at ha
  | cons x l ih =>
    cases l with
    | nil => simp at ha
    | cons y l =>
      rw [List.dropLast_cons₂, List.mem_cons] at ha
      rcases ha with rfl | ha
      · rw [hl.1.1, hl'.1.1]
      · exact ih hl.2 hl'.2 ha

theorem path_prev_unique {h h' : Heap} {l : List Link} (hl : Path h l) (hl' : Path h' l)
    {a : Link} (ha : a ∈ l.tail) : h'.pPrevious a = h.pPrevious a := by
  have hm : Path h.mirror l.reverse := by rw [path_mirror]; simpa using hl
  have hm' : Path h'.mirror l.reverse := by rw [path_mirror]; simpa using hl'
  exact path_next_unique hm hm' (by simpa using ha)

/-- Two heaps that hold the same well-formed list and agree on all other links are equal. -/
theorem wf_heap_ext {h h' : Heap} {H : Link} {xs : List Link} (hwf : WellFormed h H xs)
    (hwf' : WellFormed h' H xs)
    (hout : ∀ l, l ∉ H :: xs → h'.pNext l = h.pNext l ∧ h'.pPrevious l = h.pPrevious l) :
    h' = h := by
  have hn : h'.pNext = h.pNext := by
    funext l
    by_cases hl : l ∈ H :: xs
    · exact path_next_unique hwf.2 hwf'.2 (by rw [List.dropLast_concat]; exact hl)
    · exact (hout l hl).1
  have hp : h'.pPrevious = h.pPrevious := by
    funext l
    by_cases hl : l ∈ H :: xs
    · exact path_prev_unique hwf.2 hwf'.2 (by simpa [or_comm] using hl)
    · exact (hout l hl).2
  cases h; cases h'
  simp only at hn hp
  rw [hn, hp]

theorem appendAll_frame {H : Link} (xs : List Link) :
    ∀ {h : Heap} {ys : List Link}, WellFormed h H ys → xs.Nodup →
      (∀ x ∈ xs, x ∉ H :: ys) → ∀ l, l ∉ H :: (ys ++ xs) →
        (appendAll H xs h).pNext l = h.pNext l ∧
        (appendAll H xs h).pPrevious l = h.pPrevious l := by
  induction xs with
  | nil => intro h ys _ _ _ l _; exact ⟨rfl, rfl⟩
  | cons x xs ih =>
    intro h ys hwf hnd hdis l hl
    rw [List.nodup_cons] at hnd
    have h1 : WellFormed (pxlibDllAppend H x h) H (ys ++ [x]) :=
      wf_addBefore_head hwf (hdis x (List.mem_cons_self _ _))
    simp only [List.mem_cons, List.mem_append, not_or] at hl
    have h2 := ih h1 hnd.2 (by
      intro z hz
      have hz1 := hdis z (List.mem_cons_of_mem _ hz)
      have hz2 : z ≠ x := fun e => hnd.1 (e ▸ hz)
      simp only [List.mem_cons, not_or] at hz1
      simp [hz1.1, hz1.2, hz2]) l (by simp [hl.1, hl.2.1, hl.2.2.1, hl.2.2.2])
    have hprev : l ≠ h.pPrevious H := by
      intro e
      have := (wf_prev hwf (List.mem_cons_self H ys)).2
      rw [← e] at this
      simp [hl.1, hl.2.1] at this
    simp only [appendAll]
    rw [h2.1, h2.2]
    simp [pxlibDllAppend, addBefore_pNext, addBefore_pPrevious, hl.1, hl.2.2.1, hprev]

theorem exec_appendOps (H : Link) (xs : List Link) :
    ∀ (h : Heap), exec h (xs.map (fun x => Op.addBefore x H)) = appendAll H xs h := by
  induction xs with
  | nil => intro h; rfl
  | cons x xs ih => intro h; exact ih _

theorem validSeq_appendOps (H : Link) (xs : List Link) :
    ∀ (ms : List Link), xs.Nodup → H ∉ xs → (∀ x ∈ xs, x ∉ ms) →
      ValidSeq H ms (xs.map (fun x => Op.addBefore x H)) ∧
      ∀ z, z ∈ membersAfter ms (xs.map (fun x => Op.addBefore x H)) ↔ z ∈ ms ∨ z ∈ xs := by
  induction xs with
  | nil => intro ms _ _ _; simp [ValidSeq, membersAfter]
  | cons x xs ih =>
    intro ms hnd hH hdis
    rw [List.nodup_cons] at hnd
    simp only [List.mem_cons, not_or] at hH
    obtain ⟨h1, h2⟩ := ih (x :: ms) hnd.2 hH.2 (by
      intro z hz
      have hz2 : z ≠ x := fun e => hnd.1 (e ▸ hz)
      simp [hz2, hdis z (List.mem_cons_of_mem _ hz)])
    refine ⟨⟨⟨Ne.symm hH.1, hdis x (List.mem_cons_self _ _), Or.inl rfl⟩, h1⟩, ?_⟩
    intro z
    simp only [List.map_cons, membersAfter, Op.members, h2, List.mem_cons]
    tauto

/-- Every well-formed list is a state reached from an initialized sentinel by valid
operations (appending its members in order), with the same members: with `wf_reachable`,
the well-formed lists are exactly the reachable states. -/
theorem reachable_of_wf {h : Heap} {H : Link} {xs : List Link} (hwf : WellFormed h H xs) :
    ∃ ops, ValidSeq H [] ops ∧ exec (pxlibDllListInit H h) ops = h ∧
      ∀ z, z ∈ membersAfter [] ops ↔ z ∈ xs := by
  have hnd : xs.Nodup := (List.nodup_cons.1 hwf.1).2
  have hH := wf_not_mem hwf
  have hdis : ∀ x ∈ xs, x ∉ H :: ([] : List Link) := by
    intro x hx
    have : x ≠ H := fun e => hH (e ▸ hx)
    simpa using this
  obtain ⟨hv, hm⟩ := validSeq_appendOps H xs [] hnd hH (by simp)
  refine ⟨xs.map (fun x => Op.addBefore x H), hv, ?_, by simpa using hm⟩
  rw [exec_appendOps]
  have hw0 := wf_listInit h H
  have hw1 := wf_appendAll xs hw0 hnd hdis
  rw [List.nil_append] at hw1
  apply wf_heap_ext hwf hw1
  intro l hl
  have h1 := appendAll_frame xs hw0 hnd hdis l (by simpa using hl)
  have hlH : l ≠ H := fun e => hl (by simp [e])
  rw [h1.1, h1.2]
  simp [pxlibDllListInit, pxlibDllMemberInit, setNext, setPrevious, hlH]

/-- Two heaps with the same contents in every field of every link are equal. -/
theorem heap_ext {h h' : Heap} (hn : ∀ l, h.pNext l = h'.pNext l)
    (hp : ∀ l, h.pPrevious l = h'.pPrevious l) : h = h' := by
  cases h; cases h'
  simp only [Heap.mk.injEq]
  exact ⟨funext hn, funext hp⟩

theorem wf_reachable_length (h0 : Heap) (H : Link) (ops : List Op) (hv : ValidSeq H [] ops) :
    ∃ xs, WellFormed (exec (pxlibDllListInit H h0) ops) H xs ∧
      (∀ x, x ∈ xs ↔ x ∈ membersAfter [] ops) ∧
      xs.length = (membersAfter [] ops).length := by
  obtain ⟨xs, h1, h2, h3⟩ :=
    wf_exec ops (wf_listInit h0 H) List.nodup_nil (fun _ => Iff.rfl) hv
  have hnd : xs.Nodup := (List.nodup_cons.1 h1.1).2
  exact ⟨xs, h1, h3, ((List.perm_ext_iff_of_nodup hnd h2).2 h3).length_eq⟩

theorem traverseBackFrom_eq (h : Heap) (H : Link) (fuel : Nat) :
    ∀ (start : Option Link),
      traverseBackFrom h H fuel start = traverseFrom h.mirror H fuel start := by
  induction fuel with
  | zero => intro start; cases start <;> rfl
  | succ fuel ih =>
    intro start
    cases start with
    | none => rfl
    | some m =>
      simp only [traverseBackFrom, traverseFrom]
      rw [ih]
      rfl

theorem traverseBack_eq (h : Heap) (H : Link) (fuel : Nat) :
    traverseBack h H fuel = traverse h.mirror H fuel :=
  traverseBackFrom_eq h H fuel _

theorem wf_traverseBack {h : Heap} {H : Link} {xs : List Link} (hwf : WellFormed h H xs)
    {fuel : Nat} (hf : xs.length ≤ fuel) : traverseBack h H fuel = some xs.reverse := by
  rw [traverseBack_eq]
  exact wf_traverse ((wf_mirror h H xs).2 hwf) (by simpa using hf)

theorem wf_head {h : Heap} {H : Link} {xs : List Link} (hwf : WellFormed h H xs)
    (hne : xs ≠ []) : xs.head? = some (h.pNext H) := by
  cases xs with
  | nil => exact absurd rfl hne
  | cons x xs =>
    have : h.pNext H = x := hwf.2.1.1
    simp [this]

theorem wf_getLast {h : Heap} {H : Link} {xs : List Link} (hwf : WellFormed h H xs)
    (hne : xs ≠ []) : xs.getLast? = some (h.pPrevious H) := by
  have := @wf_head h.mirror H xs.reverse ((wf_mirror h H xs).2 hwf) (by simpa using hne)
  simpa [Heap.mirror] using this

theorem wf_next_mem {h : Heap} {H : Link} {xs : List Link} (hwf : WellFormed h H xs)
    {a : Link} (ha : a ∈ H :: xs) (hne : h.pNext a ≠ H) : h.pNext a ∈ xs := by
  have := (wf_next hwf ha).2
  simpa [hne] using this

theorem wf_prev_mem {h : Heap} {H : Link} {xs : List Link} (hwf : WellFormed h H xs)
    {a : Link} (ha : a ∈ H :: xs) (hne : h.pPrevious a ≠ H) : h.pPrevious a ∈ xs := by
  have := (wf_prev hwf ha).2
  simpa [hne] using this

theorem op_frame {h : Heap} {H : Link} {xs ms : List Link} {op : Op}
    (hwf : WellFormed h H xs) (hmem : ∀ x, x ∈ xs ↔ x ∈ ms) (hv : op.Valid H ms)
    {l : Link} (hl : l ∉ H :: ms)
    (hnew : ∀ n p, op = Op.addAfter n p ∨ op = Op.addBefore n p → l ≠ n) :
    (op.apply h).pNext l = h.pNext l ∧ (op.apply h).pPrevious l = h.pPrevious l := by
  have hc : ∀ a, a ∈ H :: xs → l ≠ a := by
    intro a ha e
    apply hl
    rw [e]
    simpa [hmem] using ha
  have hc2 : ∀ a, a ∈ xs ++ [H] → l ≠ a := by
    intro a ha
    exact hc a (by simpa [or_comm] using ha)
  have hin : ∀ a, a = H ∨ a ∈ ms → a ∈ H :: xs := by
    intro a ha
    simpa [hmem] using ha
  cases op with
  | addAfter n p =>
    obtain ⟨-, -, h3⟩ := hv
    have hp := hin p h3
    have h1 : l ≠ p := hc p hp
    have h2 : l ≠ h.pNext p := hc2 _ (wf_next hwf hp).2
    have h4 : l ≠ n := hnew n p (Or.inl rfl)
    simp [Op.apply, addAfter_pNext, addAfter_pPrevious, h1, h2, h4]
  | addBefore n p =>
    obtain ⟨-, -, h3⟩ := hv
    have hp := hin p h3
    have h1 : l ≠ p := hc p hp
    have h2 : l ≠ h.pPrevious p := hc _ (wf_prev hwf hp).2
    have h4 : l ≠ n := hnew n p (Or.inr rfl)
    simp [Op.apply, addBefore_pNext, addBefore_pPrevious, h1, h2, h4]
  | remove m =>
    have hm := hin m (Or.inr hv)
    have h1 : l ≠ h.pPrevious m := hc _ (wf_prev hwf hm).2
    have h2 : l ≠ h.pNext m := hc2 _ (wf_next hwf hm).2
    simp [Op.apply, remove_pNext, remove_pPrevious, h1, h2]

theorem public_step {h : Heap} {H : Link} {xs ms rs : List Link} {op : PublicOp}
    (hwf : WellFormed h H xs) (hms : ms.Nodup) (hmem : ∀ x, x ∈ xs ↔ x ∈ ms)
    (hiso : OthersIsolated h H ms rs) (hv : op.Valid H ms) :
    ∃ xs', WellFormed (op.apply h) H xs' ∧ (op.members ms).Nodup ∧
      (∀ x, x ∈ xs' ↔ x ∈ op.members ms) ∧
      OthersIsolated (op.apply h) H (op.members ms) (op.removed rs) := by
  cases op with
  | init m =>
    obtain ⟨h1, h2⟩ := hv
    have hm : m ∉ H :: xs := by simp [h1, hmem, h2]
    refine ⟨xs, wf_memberInit hwf hm, hms, hmem, ?_⟩
    intro l hl hr
    by_cases hlm : l = m
    · subst hlm
      simp [PublicOp.apply, pxlibDllMemberInit, setNext, setPrevious]
    · have hr2 : l ∉ rs := by
        intro hx
        exact hr (by simp [PublicOp.removed, hx, hlm])
      have := hiso l hl hr2
      simpa [PublicOp.apply, pxlibDllMemberInit, setNext, setPrevious, hlm] using this
  | list op =>
    have hv : op.Valid H ms := hv
    obtain ⟨xs', hwf', hms', hmem'⟩ := wf_step hwf hms hmem hv
    refine ⟨xs', hwf', hms', hmem', ?_⟩
    intro l hl hr
    cases op with
    | addAfter n p =>
      simp only [PublicOp.members, Op.members, List.mem_cons, not_or] at hl
      have hr2 : l ∉ rs := by
        intro hx
        exact hr (by simp [PublicOp.removed, hx, hl.2.1])
      have hl2 : l ∉ H :: ms := by simp [hl.1, hl.2.2]
      have := op_frame hwf hmem hv hl2 (by
        intro n' p' e
        rcases e with e | e
        · cases e; exact hl.2.1
        · cases e)
      simp only [PublicOp.apply]
      rw [this.1, this.2]
      exact hiso l hl2 hr2
    | addBefore n p =>
      simp only [PublicOp.members, Op.members, List.mem_cons, not_or] at hl
      have hr2 : l ∉ rs := by
        intro hx
        exact hr (by simp [PublicOp.removed, hx, hl.2.1])
      have hl2 : l ∉ H :: ms := by simp [hl.1, hl.2.2]
      have := op_frame hwf hmem hv hl2 (by
        intro n' p' e
        rcases e with e | e
        · cases e
        · cases e; exact hl.2.1)
      simp only [PublicOp.apply]
      rw [this.1, this.2]
      exact hiso l hl2 hr2
    | remove m =>
      simp only [PublicOp.removed, List.mem_cons, not_or] at hr
      simp only [PublicOp.members, Op.members, List.mem_cons, not_or,
        hms.mem_erase_iff] at hl
      have hl2 : l ∉ H :: ms := by
        simp only [List.mem_cons, not_or]
        exact ⟨hl.1, fun hx => hl.2 ⟨hr.1, hx⟩⟩
      have := op_frame hwf hmem hv hl2 (by
        intro n' p' e
        rcases e with e | e <;> cases e)
      simp only [PublicOp.apply]
      rw [this.1, this.2]
      exact hiso l hl2 hr.2

theorem public_exec {H : Link} (ops : List PublicOp) :
    ∀ {h : Heap} {xs ms rs : List Link}, WellFormed h H xs → ms.Nodup →
      (∀ x, x ∈ xs ↔ x ∈ ms) → OthersIsolated h H ms rs → ValidPublicSeq H ms ops →
      ∃ xs', WellFormed (execPublic h ops) H xs' ∧
        (∀ x, x ∈ xs' ↔ x ∈ membersAfterPublic ms ops) ∧
        OthersIsolated (execPublic h ops) H (membersAfterPublic ms ops)
          (removedAfter rs ops) := by
  induction ops with
  | nil => intro h xs ms rs hwf _ hmem hiso _; exact ⟨xs, hwf, hmem, hiso⟩
  | cons op ops ih =>
    intro h xs ms rs hwf hms hmem hiso hv
    obtain ⟨xs', hwf', hms', hmem', hiso'⟩ := public_step hwf hms hmem hiso hv.1
    exact ih hwf' hms' hmem' hiso' hv.2

theorem validPublicSeq_take {H : Link} (ops : List PublicOp) :
    ∀ (ms : List Link) (k : Nat), ValidPublicSeq H ms ops →
      ValidPublicSeq H ms (ops.take k) := by
  induction ops with
  | nil => intro ms k _; simp [ValidPublicSeq]
  | cons op ops ih =>
    intro ms k hv
    cases k with
    | zero => simp [ValidPublicSeq]
    | succ k => exact ⟨hv.1, ih _ k hv.2⟩

theorem symmetric_of_isolated {h : Heap} {H : Link} {xs ms rs : List Link}
    (hwf : WellFormed h H xs) (hmem : ∀ x, x ∈ xs ↔ x ∈ ms)
    (hiso : OthersIsolated h H ms rs) {A B : Link} (hA : A ∉ rs) (hB : B ∉ rs) :
    h.pNext A = B ↔ h.pPrevious B = A := by
  have hc : ∀ a, a ∈ H :: xs ↔ a ∈ H :: ms := by
    intro a; simp [hmem]
  by_cases hAc : A ∈ H :: xs
  · by_cases hBc : B ∈ H :: xs
    · exact wf_symmetric hwf hAc hBc
    · have hBi := hiso B (fun hx => hBc ((hc B).2 hx)) hB
      constructor
      · intro e
        have := (wf_next hwf hAc).2
        rw [e] at this
        exact absurd (by simpa [or_comm] using this) hBc
      · intro e
        rw [hBi.2] at e
        exact absurd (e ▸ hAc) hBc
  · have hAi := hiso A (fun hx => hAc ((hc A).2 hx)) hA
    by_cases hBc : B ∈ H :: xs
    · constructor
      · intro e
        rw [hAi.1] at e
        exact absurd (e ▸ hBc) hAc
      · intro e
        have := (wf_prev hwf hBc).2
        rw [e] at this
        exact absurd this hAc
    · have hBi := hiso B (fun hx => hBc ((hc B).2 hx)) hB
      rw [hAi.1, hBi.2]
      exact eq_comm

/-! ## The properties -/

/-- C1: on an initially empty list (an initialized sentinel `H`), after every operation
of every valid sequence of `pxlibDllAddAfter`, `pxlibDllAddBefore` and `pxlibDllRemove`
(that is, after each prefix `ops.take k` of the sequence): following `pNext` repeatedly
from `H` or from a current member returns to the starting link, likewise following
`pPrevious`, and for `A`, `B` among `H` and the current members, `A.pNext == B` if and
only if `B.pPrevious == A`. -/
theorem invariants_after_every_operation (h0 : Heap) (H : Link) (ops : List Op)
    (hv : ValidSeq H [] ops) (k : Nat) :
    (∀ a ∈ H :: membersAfter [] (ops.take k),
      (∃ n, 0 < n ∧ (exec (pxlibDllListInit H h0) (ops.take k)).pNext^[n] a = a) ∧
      (∃ n, 0 < n ∧ (exec (pxlibDllListInit H h0) (ops.take k)).pPrevious^[n] a = a)) ∧
    (∀ a ∈ H :: membersAfter [] (ops.take k), ∀ b ∈ H :: membersAfter [] (ops.take k),
      ((exec (pxlibDllListInit H h0) (ops.take k)).pNext a = b ↔
        (exec (pxlibDllListInit H h0) (ops.take k)).pPrevious b = a)) := by
  obtain ⟨xs, hwf, hmem⟩ := wf_reachable h0 H (ops.take k) (validSeq_take ops [] k hv)
  have hc : ∀ a, a ∈ H :: membersAfter [] (ops.take k) → a ∈ H :: xs := by
    intro a ha
    simpa [hmem] using ha
  refine ⟨fun a ha => ⟨wf_circular_next hwf (hc a ha), wf_circular_prev hwf (hc a ha)⟩, ?_⟩
  intro a ha b hb
  exact wf_symmetric hwf (hc a ha) (hc b hb)

/-- C1 at a concrete run: on sentinel 0, insert 1 after 0, insert 2 before 1, insert 3
after 2, remove 1, insert 1 before 0; the invariants hold after the fourth operation. -/
theorem invariants_after_every_operation_witness :
    ValidSeq 0 [] [Op.addAfter 1 0, Op.addBefore 2 1, Op.addAfter 3 2, Op.remove 1,
      Op.addBefore 1 0] ∧
    ((∀ a ∈ 0 :: membersAfter [] ([Op.addAfter 1 0, Op.addBefore 2 1, Op.addAfter 3 2,
        Op.remove 1, Op.addBefore 1 0].take 4),
      (∃ n, 0 < n ∧ (exec (pxlibDllListInit 0 isolatedHeap) ([Op.addAfter 1 0,
        Op.addBefore 2 1, Op.addAfter 3 2, Op.remove 1, Op.addBefore 1 0].take 4)).pNext^[n] a
          = a) ∧
      (∃ n, 0 < n ∧ (exec (pxlibDllListInit 0 isolatedHeap) ([Op.addAfter 1 0,
        Op.addBefore 2 1, Op.addAfter 3 2, Op.remove 1,
        Op.addBefore 1 0].take 4)).pPrevious^[n] a = a)) ∧
    (∀ a ∈ 0 :: membersAfter [] ([Op.addAfter 1 0, Op.addBefore 2 1, Op.addAfter 3 2,
        Op.remove 1, Op.addBefore 1 0].take 4),
      ∀ b ∈ 0 :: membersAfter [] ([Op.addAfter 1 0, Op.addBefore 2 1, Op.addAfter 3 2,
        Op.remove 1, Op.addBefore 1 0].take 4),
      ((exec (pxlibDllListInit 0 isolatedHeap) ([Op.addAfter 1 0, Op.addBefore 2 1,
        Op.addAfter 3 2, Op.remove 1, Op.addBefore 1 0].take 4)).pNext a = b ↔
        (exec (pxlibDllListInit 0 isolatedHeap) ([Op.addAfter 1 0, Op.addBefore 2 1,
          Op.addAfter 3 2, Op.remove 1, Op.addBefore 1 0].take 4)).pPrevious b = a))) :=
  ⟨by decide, invariants_after_every_operation isolatedHeap 0 _ (by decide) 4⟩

/-- C2: for pairwise distinct links `xs = x1..xN`, all different from the sentinel `H`,
after initializing `H`, initializing every `xi` and appending `x1, ..., xN` in this order
with `pxlibDllAppend`, call number `i` (from 0) of the traversal `pxlibDllFirst(H)`,
`pxlibDllNext(H, .)`, ... returns `xs[i]` for every `i < N`, and the next call, the
`(N+1)`-th, returns `NULL`; the traversal loop yields exactly `xs`. -/
theorem append_then_traverse (h0 : Heap) (H : Link) (xs : List Link) (hnd : xs.Nodup)
    (hH : H ∉ xs) :
    (∀ (i : Nat) (hi : i < xs.length),
      traversalCall (appendAll H xs (initAll xs (pxlibDllListInit H h0))) H i = some xs[i]) ∧
    traversalCall (appendAll H xs (initAll xs (pxlibDllListInit H h0))) H xs.length = none ∧
    traverse (appendAll H xs (initAll xs (pxlibDllListInit H h0))) H xs.length = some xs := by
  have hwf := wf_appended h0 H xs hnd hH
  refine ⟨?_, ?_, wf_traverse hwf (Nat.le_refl _)⟩
  · intro i hi
    rw [wf_traversalCall hwf, List.getElem?_eq_getElem hi]
  · rw [wf_traversalCall hwf]
    simp

/-- C2 at the links 5, 3, 8 appended to the list with sentinel 0. -/
theorem append_then_traverse_witness :
    (∀ (i : Nat) (hi : i < [5, 3, 8].length),
      traversalCall (appendAll 0 [5, 3, 8] (initAll [5, 3, 8]
        (pxlibDllListInit 0 isolatedHeap))) 0 i = some [5, 3, 8][i]) ∧
    traversalCall (appendAll 0 [5, 3, 8] (initAll [5, 3, 8]
      (pxlibDllListInit 0 isolatedHeap))) 0 [5, 3, 8].length = none ∧
    traverse (appendAll 0 [5, 3, 8] (initAll [5, 3, 8]
      (pxlibDllListInit 0 isolatedHeap))) 0 [5, 3, 8].length = some [5, 3, 8] :=
  append_then_traverse isolatedHeap 0 [5, 3, 8] (by decide) (by decide)

/-- C3: for pairwise distinct links `xs = x1..xN`, all different from the sentinel `H` and
freshly initialized, the First/Next traversal of the list obtained by prepending
`x1, ..., xN` in order to an empty list is the reverse of the traversal of the list
obtained by appending them in the same order: prepending yields `xN, ..., x1`. -/
theorem prepend_reverse_of_append (h0 : Heap) (H : Link) (xs : List Link) (hnd : xs.Nodup)
    (hH : H ∉ xs) (fuel : Nat) (hf : xs.length ≤ fuel) :
    traverse (prependAll H xs (initAll xs (pxlibDllListInit H h0))) H fuel =
      (traverse (appendAll H xs (initAll xs (pxlibDllListInit H h0))) H fuel).map
        List.reverse ∧
    traverse (prependAll H xs (initAll xs (pxlibDllListInit H h0))) H fuel =
      some xs.reverse := by
  have h1 := wf_traverse (wf_appended h0 H xs hnd hH) hf
  have h2 := wf_traverse (wf_prepended h0 H xs hnd hH) (by simpa using hf)
  rw [h1, h2]
  exact ⟨rfl, rfl⟩

/-- C3 at the links 5, 3, 8 and the sentinel 0. -/
theorem prepend_reverse_of_append_witness :
    traverse (prependAll 0 [5, 3, 8] (initAll [5, 3, 8] (pxlibDllListInit 0 isolatedHeap)))
        0 3 =
      (traverse (appendAll 0 [5, 3, 8] (initAll [5, 3, 8] (pxlibDllListInit 0 isolatedHeap)))
        0 3).map List.reverse ∧
    traverse (prependAll 0 [5, 3, 8] (initAll [5, 3, 8] (pxlibDllListInit 0 isolatedHeap)))
        0 3 = some [5, 3, 8].reverse :=
  prepend_reverse_of_append isolatedHeap 0 [5, 3, 8] (by decide) (by decide) 3 (by decide)

/-- C4: in a well-formed list with sentinel `H` whose First/Next traversal is `xs`, after
`pxlibDllRemove(X)` of a member `X` the traversal from `H` is `xs` without `X`, the other
members in their original order: it does not yield `X` and its length is
`length(xs) - 1`. -/
theorem remove_then_traverse (h : Heap) (H : Link) (xs : List Link) (X : Link)
    (hwf : WellFormed h H xs) (hX : X ∈ xs) (fuel : Nat) (hf : xs.length - 1 ≤ fuel) :
    traverse h H xs.length = some xs ∧
    traverse (pxlibDllRemove X h) H fuel = some (xs.filter (fun y => decide (y ≠ X))) ∧
    X ∉ xs.filter (fun y => decide (y ≠ X)) ∧
    (xs.filter (fun y => decide (y ≠ X))).length = xs.length - 1 := by
  have hnd : xs.Nodup := (List.nodup_cons.1 hwf.1).2
  have he : xs.erase X = xs.filter (fun y => decide (y ≠ X)) := by
    rw [hnd.erase_eq_filter X]
    apply List.filter_congr
    intro y _
    by_cases hy : y = X <;> simp [hy]
  have hl : (xs.erase X).length = xs.length - 1 := List.length_erase_of_mem hX
  rw [← he]
  refine ⟨wf_traverse hwf (Nat.le_refl _), wf_traverse (wf_remove hwf hX) (by omega), ?_, hl⟩
  rw [he]
  simp

/-- C4 at the list 5, 3, 8 with sentinel 0, removing 3. -/
theorem remove_then_traverse_witness :
    WellFormed (appendAll 0 [5, 3, 8] (pxlibDllListInit 0 isolatedHeap)) 0 [5, 3, 8] ∧
    traverse (appendAll 0 [5, 3, 8] (pxlibDllListInit 0 isolatedHeap)) 0 [5, 3, 8].length =
      some [5, 3, 8] ∧
    traverse (pxlibDllRemove 3 (appendAll 0 [5, 3, 8] (pxlibDllListInit 0 isolatedHeap))) 0 2 =
      some ([5, 3, 8].filter (fun y => decide (y ≠ 3))) ∧
    3 ∉ [5, 3, 8].filter (fun y => decide (y ≠ 3)) ∧
    ([5, 3, 8].filter (fun y => decide (y ≠ 3))).length = [5, 3, 8].length - 1 :=
  ⟨by decide, remove_then_traverse _ 0 [5, 3, 8] 3 (by decide) (by decide) 2 (by decide)⟩

/-- C5: for pairwise distinct `H`, `A`, `B`: after initializing `H`, `pxlibDllFirst(H)` is
`NULL`; after then `pxlibDllAddAfter(A, H)` and `pxlibDllAddBefore(B, H)`, First is `A`,
Last is `B`, `Next(H, A)` is `B` and `Next(H, B)` is `NULL`.  And in any state (hence on
any well-formed list), a link other than `H` inserted after the sentinel is
`pxlibDllFirst(H)`, and inserted before the sentinel it is `pxlibDllLast(H)`. -/
theorem scenario_first_last (h0 : Heap) (H A B : Link) (hHA : H ≠ A) (hHB : H ≠ B)
    (hAB : A ≠ B) :
    pxlibDllFirst H (pxlibDllListInit H h0) = none ∧
    pxlibDllFirst H (pxlibDllAddBefore B H (pxlibDllAddAfter A H (pxlibDllListInit H h0))) =
      some A ∧
    pxlibDllLast H (pxlibDllAddBefore B H (pxlibDllAddAfter A H (pxlibDllListInit H h0))) =
      some B ∧
    pxlibDllNext H A (pxlibDllAddBefore B H (pxlibDllAddAfter A H (pxlibDllListInit H h0))) =
      some B ∧
    pxlibDllNext H B (pxlibDllAddBefore B H (pxlibDllAddAfter A H (pxlibDllListInit H h0))) =
      none ∧
    (∀ (h : Heap) (new : Link), new ≠ H →
      pxlibDllFirst H (pxlibDllAddAfter new H h) = some new ∧
      pxlibDllLast H (pxlibDllAddBefore new H h) = some new) := by
  have hw0 := wf_listInit h0 H
  have hw1 : WellFormed (pxlibDllAddAfter A H (pxlibDllListInit H h0)) H [A] :=
    wf_addAfter_head hw0 (by simpa using Ne.symm hHA)
  have hw2 := wf_addBefore_head hw1 (show B ∉ H :: [A] by
    simp [Ne.symm hHB, Ne.symm hAB])
  have hc := wf_traversalCall hw2
  have hH := wf_not_mem hw2
  refine ⟨?_, ?_, ?_, ?_, ?_, ?_⟩
  · simp [pxlibDllFirst, pxlibDllNext, pxlibDllListInit, pxlibDllMemberInit, setNext,
      setPrevious]
  · simpa [traversalCall] using hc 0
  · have : (pxlibDllAddBefore B H (pxlibDllAddAfter A H (pxlibDllListInit H h0))).pPrevious H
        = B := by simp [pxlibDllAddBefore, setNext, setPrevious]
    simp [pxlibDllLast, pxlibDllPrev, this, Ne.symm hHB]
  · exact path_next_get _ H 0 A hw2.2 hH rfl
  · exact path_next_get _ H 1 B hw2.2 hH rfl
  · intro h new hn
    constructor
    · simp [pxlibDllFirst, pxlibDllNext, addAfter_pNext, hn]
    · have : (pxlibDllAddBefore new H h).pPrevious H = new := by
        simp [pxlibDllAddBefore, setNext, setPrevious]
      simp [pxlibDllLast, pxlibDllPrev, this, hn]

/-- C5 at the sentinel 0 and the links 1 and 2. -/
theorem scenario_first_last_witness :
    pxlibDllFirst 0 (pxlibDllListInit 0 isolatedHeap) = none ∧
    pxlibDllFirst 0 (pxlibDllAddBefore 2 0 (pxlibDllAddAfter 1 0
      (pxlibDllListInit 0 isolatedHeap))) = some 1 ∧
    pxlibDllLast 0 (pxlibDllAddBefore 2 0 (pxlibDllAddAfter 1 0
      (pxlibDllListInit 0 isolatedHeap))) = some 2 ∧
    pxlibDllNext 0 1 (pxlibDllAddBefore 2 0 (pxlibDllAddAfter 1 0
      (pxlibDllListInit 0 isolatedHeap))) = some 2 ∧
    pxlibDllNext 0 2 (pxlibDllAddBefore 2 0 (pxlibDllAddAfter 1 0
      (pxlibDllListInit 0 isolatedHeap))) = none ∧
    (∀ (h : Heap) (new : Link), new ≠ 0 →
      pxlibDllFirst 0 (pxlibDllAddAfter new 0 h) = some new ∧
      pxlibDllLast 0 (pxlibDllAddBefore new 0 h) = some new) :=
  scenario_first_last isolatedHeap 0 1 2 (by decide) (by decide) (by decide)

/-- C6: for a member `M` of a well-formed list, with `P = M.pPrevious` and `N = M.pNext`
read before the call, after `pxlibDllRemove(M)`: `P.pNext == N` and `N.pPrevious == P`;
`M.pNext` and `M.pPrevious` still hold `N` and `P`, so `M` is not in the self-loop state;
no `pNext` field other than `P.pNext` and no `pPrevious` field other than `N.pPrevious`
is changed.  For the list `[A, B, C]`, after removing `B`, `Next(H, A) == C` and
`Previous(H, C) == A`. -/
theorem remove_effect (h : Heap) (H : Link) (xs : List Link) (M : Link)
    (hwf : WellFormed h H xs) (hM : M ∈ xs) :
    (pxlibDllRemove M h).pNext (h.pPrevious M) = h.pNext M ∧
    (pxlibDllRemove M h).pPrevious (h.pNext M) = h.pPrevious M ∧
    (pxlibDllRemove M h).pNext M = h.pNext M ∧
    (pxlibDllRemove M h).pPrevious M = h.pPrevious M ∧
    (pxlibDllRemove M h).pNext M ≠ M ∧
    (pxlibDllRemove M h).pPrevious M ≠ M ∧
    (∀ l, l ≠ h.pPrevious M → (pxlibDllRemove M h).pNext l = h.pNext l) ∧
    (∀ l, l ≠ h.pNext M → (pxlibDllRemove M h).pPrevious l = h.pPrevious l) ∧
    (∀ A B C, xs = [A, B, C] → M = B →
      pxlibDllNext H A (pxlibDllRemove B h) = some C ∧
      pxlibDllPrev H C (pxlibDllRemove B h) = some A) := by
  have hn : (pxlibDllRemove M h).pNext M = h.pNext M := by
    rw [remove_pNext]; split <;> rfl
  have hp : (pxlibDllRemove M h).pPrevious M = h.pPrevious M := by
    rw [remove_pPrevious]; split <;> rfl
  refine ⟨by simp [remove_pNext], by simp [remove_pPrevious], hn, hp, ?_, ?_, ?_, ?_, ?_⟩
  · rw [hn]; exact wf_next_ne_self hwf hM
  · rw [hp]; exact wf_prev_ne_self hwf hM
  · intro l hl; simp [remove_pNext, hl]
  · intro l hl; simp [remove_pPrevious, hl]
  · intro A B C hxs hMB
    subst hxs
    have hw : WellFormed (pxlibDllRemove B h) H ([A] ++ [C]) :=
      @wf_remove_split h H B [A] [C] hwf
    have hH := wf_not_mem hw
    simp only [List.cons_append, List.nil_append, List.mem_cons, List.not_mem_nil,
      or_false, not_or] at hH
    obtain ⟨-, hAC, -⟩ := hw.2
    have h1 : (pxlibDllRemove B h).pNext A = C := hAC.1
    have h2 : (pxlibDllRemove B h).pPrevious C = A := hAC.2
    simp [pxlibDllNext, pxlibDllPrev, h1, h2, Ne.symm hH.1, Ne.symm hH.2]

/-- C6 at the list 1, 2, 3 with sentinel 0, removing 2. -/
theorem remove_effect_witness :
    WellFormed (appendAll 0 [1, 2, 3] (pxlibDllListInit 0 isolatedHeap)) 0 [1, 2, 3] ∧
    pxlibDllNext 0 1 (pxlibDllRemove 2 (appendAll 0 [1, 2, 3]
      (pxlibDllListInit 0 isolatedHeap))) = some 3 ∧
    pxlibDllPrev 0 3 (pxlibDllRemove 2 (appendAll 0 [1, 2, 3]
      (pxlibDllListInit 0 isolatedHeap))) = some 1 :=
  ⟨by decide,
    (remove_effect (appendAll 0 [1, 2, 3] (pxlibDllListInit 0 isolatedHeap)) 0 [1, 2, 3] 2
      (by decide) (by decide)).2.2.2.2.2.2.2.2 1 2 3 rfl rfl⟩

/-- C7: for a position `pos` with old successor `S = pos.pNext` and a link `new` with
`new != pos` and `new != S`, after `pxlibDllAddAfter(new, pos)`: `new.pPrevious == pos`,
`new.pNext == S`, `S.pPrevious == new`, `pos.pNext == new`, and no other field of any
link is changed; when `S == pos` (empty list), `pos.pNext` and `pos.pPrevious` are both
`new`. -/
theorem addAfter_effect (h : Heap) (new pos : Link) (h1 : new ≠ pos)
    (h2 : new ≠ h.pNext pos) :
    (pxlibDllAddAfter new pos h).pPrevious new = pos ∧
    (pxlibDllAddAfter new pos h).pNext new = h.pNext pos ∧
    (pxlibDllAddAfter new pos h).pPrevious (h.pNext pos) = new ∧
    (pxlibDllAddAfter new pos h).pNext pos = new ∧
    (∀ l, l ≠ new → l ≠ pos → (pxlibDllAddAfter new pos h).pNext l = h.pNext l) ∧
    (∀ l, l ≠ new → l ≠ h.pNext pos →
      (pxlibDllAddAfter new pos h).pPrevious l = h.pPrevious l) ∧
    (h.pNext pos = pos → (pxlibDllAddAfter new pos h).pNext pos = new ∧
      (pxlibDllAddAfter new pos h).pPrevious pos = new) := by
  refine ⟨?_, ?_, ?_, ?_, ?_, ?_, ?_⟩
  · simp [addAfter_pPrevious, h2]
  · simp [addAfter_pNext, h1]
  · simp [addAfter_pPrevious]
  · simp [addAfter_pNext]
  · intro l hl1 hl2; simp [addAfter_pNext, hl1, hl2]
  · intro l hl1 hl2; simp [addAfter_pPrevious, hl1, hl2]
  · intro hS
    constructor
    · simp [addAfter_pNext]
    · simp [addAfter_pPrevious, hS]

/-- C7 at the list 1, 2 with sentinel 0: link 7 inserted after 1. -/
theorem addAfter_effect_witness :
    (7 : Link) ≠ 1 ∧
    (7 : Link) ≠ (appendAll 0 [1, 2] (pxlibDllListInit 0 isolatedHeap)).pNext 1 ∧
    (pxlibDllAddAfter 7 1 (appendAll 0 [1, 2] (pxlibDllListInit 0 isolatedHeap))).pNext 1
      = 7 :=
  ⟨by decide, by decide,
    (addAfter_effect (appendAll 0 [1, 2] (pxlibDllListInit 0 isolatedHeap)) 7 1 (by decide)
      (by decide)).2.2.2.1⟩

/-- C8: after `pxlibDllMemberInit(L)`, and identically after `pxlibDllListInit(L)`,
`L.pNext == L` and `L.pPrevious == L`, and no field of any other link is changed. -/
theorem memberInit_effect (h : Heap) (L : Link) :
    (pxlibDllMemberInit L h).pNext L = L ∧
    (pxlibDllMemberInit L h).pPrevious L = L ∧
    (∀ l, l ≠ L → (pxlibDllMemberInit L h).pNext l = h.pNext l ∧
      (pxlibDllMemberInit L h).pPrevious l = h.pPrevious l) ∧
    pxlibDllListInit L h = pxlibDllMemberInit L h := by
  refine ⟨?_, ?_, ?_, rfl⟩
  · simp [pxlibDllMemberInit, setNext, setPrevious]
  · simp [pxlibDllMemberInit, setNext, setPrevious]
  · intro l hl
    simp [pxlibDllMemberInit, setNext, setPrevious, hl]

/-- C9: in every state reached from an initialized sentinel `H` by valid inserts and
removes, each of `H.pNext == H`, `H.pPrevious == H`, `pxlibDllFirst(H) == NULL` and
`pxlibDllLast(H) == NULL` holds exactly when the list has no members (so the four are
equivalent); First is `pxlibDllNext(H, H)` and Last is `pxlibDllPrev(H, H)`. -/
theorem empty_list_conditions (h0 : Heap) (H : Link) (ops : List Op)
    (hv : ValidSeq H [] ops) :
    ((exec (pxlibDllListInit H h0) ops).pNext H = H ↔ membersAfter [] ops = []) ∧
    ((exec (pxlibDllListInit H h0) ops).pPrevious H = H ↔ membersAfter [] ops = []) ∧
    (pxlibDllFirst H (exec (pxlibDllListInit H h0) ops) = none ↔
      membersAfter [] ops = []) ∧
    (pxlibDllLast H (exec (pxlibDllListInit H h0) ops) = none ↔
      membersAfter [] ops = []) ∧
    pxlibDllFirst H (exec (pxlibDllListInit H h0) ops) =
      pxlibDllNext H H (exec (pxlibDllListInit H h0) ops) ∧
    pxlibDllLast H (exec (pxlibDllListInit H h0) ops) =
      pxlibDllPrev H H (exec (pxlibDllListInit H h0) ops) := by
  obtain ⟨xs, hwf, hmem⟩ := wf_reachable h0 H ops hv
  have hnil : xs = [] ↔ membersAfter [] ops = [] := by
    simp only [List.eq_nil_iff_forall_not_mem, hmem]
  have hHH : H ∈ H :: xs := List.mem_cons_self _ _
  have hn := (wf_empty_iff hwf).trans hnil
  have hp := (wf_symmetric hwf hHH hHH).symm.trans hn
  refine ⟨hn, hp, ?_, ?_, rfl, rfl⟩
  · rw [← hn]; simp [pxlibDllFirst, pxlibDllNext]
  · rw [← hp]; simp [pxlibDllLast, pxlibDllPrev]

/-- C9 at two runs on sentinel 0: one that ends with a member, one that ends empty. -/
theorem empty_list_conditions_witness :
    (ValidSeq 0 [] [Op.addAfter 1 0, Op.addBefore 2 1, Op.remove 1] ∧
      ¬ membersAfter [] [Op.addAfter 1 0, Op.addBefore 2 1, Op.remove 1] = [] ∧
      ¬ pxlibDllFirst 0 (exec (pxlibDllListInit 0 isolatedHeap)
        [Op.addAfter 1 0, Op.addBefore 2 1, Op.remove 1]) = none) ∧
    (ValidSeq 0 [] [Op.addAfter 1 0, Op.remove 1] ∧
      membersAfter [] [Op.addAfter 1 0, Op.remove 1] = [] ∧
      pxlibDllLast 0 (exec (pxlibDllListInit 0 isolatedHeap)
        [Op.addAfter 1 0, Op.remove 1]) = none) :=
  ⟨⟨by decide, by decide,
      fun e => absurd ((empty_list_conditions isolatedHeap 0
        [Op.addAfter 1 0, Op.addBefore 2 1, Op.remove 1] (by decide)).2.2.1.1 e)
        (by decide)⟩,
    ⟨by decide, by decide,
      (empty_list_conditions isolatedHeap 0 [Op.addAfter 1 0, Op.remove 1]
        (by decide)).2.2.2.1.2 (by decide)⟩⟩

/-- C10: in a well-formed list with sentinel `H`, for every member `M`: if `M` is not the
first member then `pxlibDllPrev(H, M)` returns a member `P` (not `NULL`) and
`pxlibDllNext(H, P) == M`; if `M` is not the last member then `pxlibDllNext(H, M)` returns
a member `Q` (not `NULL`) and `pxlibDllPrev(H, Q) == M`. -/
theorem next_prev_round_trip (h : Heap) (H : Link) (xs : List Link) (M : Link)
    (hwf : WellFormed h H xs) (hM : M ∈ xs) :
    (pxlibDllFirst H h ≠ some M →
      ∃ P, P ∈ xs ∧ pxlibDllPrev H M h = some P ∧ pxlibDllNext H P h = some M) ∧
    (pxlibDllLast H h ≠ some M →
      ∃ Q, Q ∈ xs ∧ pxlibDllNext H M h = some Q ∧ pxlibDllPrev H Q h = some M) := by
  have hMH : M ≠ H := fun e => wf_not_mem hwf (e ▸ hM)
  have hMc : M ∈ H :: xs := List.mem_cons_of_mem H hM
  constructor
  · intro hfirst
    obtain ⟨h1, h2⟩ := wf_prev hwf hMc
    have hP : h.pPrevious M ≠ H := by
      intro e
      apply hfirst
      rw [e] at h1
      simp [pxlibDllFirst, pxlibDllNext, h1, hMH]
    refine ⟨h.pPrevious M, ?_, ?_, ?_⟩
    · simpa [hP] using h2
    · simp [pxlibDllPrev, hP]
    · simp [pxlibDllNext, h1, hMH]
  · intro hlast
    obtain ⟨h1, h2⟩ := wf_next hwf hMc
    have hQ : h.pNext M ≠ H := by
      intro e
      apply hlast
      rw [e] at h1
      simp [pxlibDllLast, pxlibDllPrev, h1, hMH]
    refine ⟨h.pNext M, ?_, ?_, ?_⟩
    · simpa [hQ] using h2
    · simp [pxlibDllNext, hQ]
    · simp [pxlibDllPrev, h1, hMH]

/-- C10 at the list 5, 3, 8 with sentinel 0 and the middle member 3, neither first nor
last. -/
theorem next_prev_round_trip_witness :
    WellFormed (appendAll 0 [5, 3, 8] (pxlibDllListInit 0 isolatedHeap)) 0 [5, 3, 8] ∧
    (3 : Link) ∈ [5, 3, 8] ∧
    pxlibDllFirst 0 (appendAll 0 [5, 3, 8] (pxlibDllListInit 0 isolatedHeap)) ≠ some 3 ∧
    (∃ P, P ∈ [5, 3, 8] ∧
      pxlibDllPrev 0 3 (appendAll 0 [5, 3, 8] (pxlibDllListInit 0 isolatedHeap)) = some P ∧
      pxlibDllNext 0 P (appendAll 0 [5, 3, 8] (pxlibDllListInit 0 isolatedHeap)) = some 3) ∧
    pxlibDllLast 0 (appendAll 0 [5, 3, 8] (pxlibDllListInit 0 isolatedHeap)) ≠ some 3 ∧
    (∃ Q, Q ∈ [5, 3, 8] ∧
      pxlibDllNext 0 3 (appendAll 0 [5, 3, 8] (pxlibDllListInit 0 isolatedHeap)) = some Q ∧
      pxlibDllPrev 0 Q (appendAll 0 [5, 3, 8] (pxlibDllListInit 0 isolatedHeap)) = some 3) :=
  ⟨by decide, by decide, by decide,
    (next_prev_round_trip _ 0 [5, 3, 8] 3 (by decide) (by decide)).1 (by decide),
    by decide,
    (next_prev_round_trip _ 0 [5, 3, 8] 3 (by decide) (by decide)).2 (by decide)⟩

/-- C11, as stated, fails: after `pxlibDllMemberInit(1)`, `pxlibDllNext(1, 1)` is not the
link 1 (it is `NULL`), and neither is `pxlibDllPrev(1, 1)`. -/
theorem next_of_initialized_self_counterexample :
    ¬ (pxlibDllNext 1 1 (pxlibDllMemberInit 1 isolatedHeap) = some 1 ∧
      pxlibDllPrev 1 1 (pxlibDllMemberInit 1 isolatedHeap) = some 1) := by
  decide

/-- C11, amended: after `pxlibDllMemberInit(L)`, `L.pNext == L` and `L.pPrevious == L`;
`pxlibDllNext(L, L)` and `pxlibDllPrev(L, L)` return `NULL`, the link taken as a list head
being an empty list; relative to any other list head `H != L`, `pxlibDllNext(H, L)` and
`pxlibDllPrev(H, L)` return `L` itself. -/
theorem next_of_initialized_self (h : Heap) (L : Link) :
    (pxlibDllMemberInit L h).pNext L = L ∧
    (pxlibDllMemberInit L h).pPrevious L = L ∧
    pxlibDllNext L L (pxlibDllMemberInit L h) = none ∧
    pxlibDllPrev L L (pxlibDllMemberInit L h) = none ∧
    (∀ H, H ≠ L → pxlibDllNext H L (pxlibDllMemberInit L h) = some L ∧
      pxlibDllPrev H L (pxlibDllMemberInit L h) = some L) := by
  have h1 : (pxlibDllMemberInit L h).pNext L = L := by
    simp [pxlibDllMemberInit, setNext, setPrevious]
  have h2 : (pxlibDllMemberInit L h).pPrevious L = L := by
    simp [pxlibDllMemberInit, setNext, setPrevious]
  refine ⟨h1, h2, ?_, ?_, ?_⟩
  · simp [pxlibDllNext, h1]
  · simp [pxlibDllPrev, h2]
  · intro H hH
    simp [pxlibDllNext, pxlibDllPrev, h1, h2, Ne.symm hH]

/-- C12, as stated, fails: from the state in which every link is initialized, with
sentinel 0, after the valid operations `pxlibDllAddAfter(1, 0)` and `pxlibDllRemove(1)`
the removed link 1 has `pNext == 0` while `0.pPrevious` is not 1. -/
theorem symmetry_all_links_counterexample :
    ValidPublicSeq 0 [] [PublicOp.list (Op.addAfter 1 0), PublicOp.list (Op.remove 1)] ∧
    ¬ ((execPublic isolatedHeap
          [PublicOp.list (Op.addAfter 1 0), PublicOp.list (Op.remove 1)]).pNext 1 = 0 ↔
        (execPublic isolatedHeap
          [PublicOp.list (Op.addAfter 1 0), PublicOp.list (Op.remove 1)]).pPrevious 0 = 1) := by
  decide

/-- C12, amended: starting from a state in which every link has been initialized, after
every public operation (initialization of a link outside the list, insert, remove, each
valid) the symmetry `A.pNext == B` iff `B.pPrevious == A` holds for any two links `A`,
`B` that are not removed links: the sentinel, the current members, and the links outside
the list other than those removed and neither initialized nor inserted again since. -/
theorem symmetry_except_removed (h0 : Heap) (H : Link) (ops : List PublicOp)
    (hinit : ∀ l, h0.pNext l = l ∧ h0.pPrevious l = l)
    (hv : ValidPublicSeq H [] ops) (k : Nat) (A B : Link)
    (hA : A ∉ removedAfter [] (ops.take k)) (hB : B ∉ removedAfter [] (ops.take k)) :
    (execPublic h0 (ops.take k)).pNext A = B ↔
      (execPublic h0 (ops.take k)).pPrevious B = A := by
  have hw0 : WellFormed h0 H [] := by
    refine ⟨by simp, ?_⟩
    show Path h0 [H, H]
    exact ⟨⟨(hinit H).1, (hinit H).2⟩, trivial⟩
  obtain ⟨xs, hwf, hmem, hiso⟩ := public_exec (ops.take k) hw0 List.nodup_nil
    (fun _ => Iff.rfl) (fun l _ _ => hinit l) (validPublicSeq_take ops [] k hv)
  exact symmetric_of_isolated hwf hmem hiso hA hB

/-- C12, amended, at a run on sentinel 0: insert 1 and 2, remove 1, insert 3, initialize
1 again; after it neither 1 nor 0 is a removed link and the symmetry holds between
them. -/
theorem symmetry_except_removed_witness :
    (∀ l, isolatedHeap.pNext l = l ∧ isolatedHeap.pPrevious l = l) ∧
    ValidPublicSeq 0 [] [PublicOp.list (Op.addAfter 1 0), PublicOp.list (Op.addBefore 2 0),
      PublicOp.list (Op.remove 1), PublicOp.list (Op.addAfter 3 2), PublicOp.init 1] ∧
    1 ∉ removedAfter [] ([PublicOp.list (Op.addAfter 1 0), PublicOp.list (Op.addBefore 2 0),
      PublicOp.list (Op.remove 1), PublicOp.list (Op.addAfter 3 2), PublicOp.init 1].take 5) ∧
    0 ∉ removedAfter [] ([PublicOp.list (Op.addAfter 1 0), PublicOp.list (Op.addBefore 2 0),
      PublicOp.list (Op.remove 1), PublicOp.list (Op.addAfter 3 2), PublicOp.init 1].take 5) ∧
    ((execPublic isolatedHeap ([PublicOp.list (Op.addAfter 1 0),
        PublicOp.list (Op.addBefore 2 0), PublicOp.list (Op.remove 1),
        PublicOp.list (Op.addAfter 3 2), PublicOp.init 1].take 5)).pNext 1 = 0 ↔
      (execPublic isolatedHeap ([PublicOp.list (Op.addAfter 1 0),
        PublicOp.list (Op.addBefore 2 0), PublicOp.list (Op.remove 1),
        PublicOp.list (Op.addAfter 3 2), PublicOp.init 1].take 5)).pPrevious 0 = 1) :=
  ⟨fun _ => ⟨rfl, rfl⟩, by decide, by decide, by decide,
    symmetry_except_removed isolatedHeap 0 _ (fun _ => ⟨rfl, rfl⟩) (by decide) 5 1 0
      (by decide) (by decide)⟩

/-- C13: in every state reached from an initialized sentinel `H` by valid operations, the
First/Next traversal from `H` ends with `NULL` (within as many links as there are
members, and whatever larger bound is given), and the sequence it yields contains no
link twice and does not contain `H`; it holds exactly the current members. -/
theorem traversal_terminates_nodup (h0 : Heap) (H : Link) (ops : List Op)
    (hv : ValidSeq H [] ops) :
    ∃ xs, (∀ fuel, (membersAfter [] ops).length ≤ fuel →
        traverse (exec (pxlibDllListInit H h0) ops) H fuel = some xs) ∧
      xs.Nodup ∧ H ∉ xs ∧ (∀ x, x ∈ xs ↔ x ∈ membersAfter [] ops) := by
  obtain ⟨xs, hwf, hmem, hlen⟩ := wf_reachable_length h0 H ops hv
  refine ⟨xs, ?_, (List.nodup_cons.1 hwf.1).2, wf_not_mem hwf, hmem⟩
  intro fuel hf
  exact wf_traverse hwf (by omega)

/-- C13 at a run on sentinel 0 that inserts 1, 2, 3, removes 1 and inserts it again. -/
theorem traversal_terminates_nodup_witness :
    ValidSeq 0 [] [Op.addAfter 1 0, Op.addBefore 2 1, Op.addAfter 3 2, Op.remove 1,
      Op.addBefore 1 0] ∧
    ∃ xs, (∀ fuel, (membersAfter [] [Op.addAfter 1 0, Op.addBefore 2 1, Op.addAfter 3 2,
        Op.remove 1, Op.addBefore 1 0]).length ≤ fuel →
        traverse (exec (pxlibDllListInit 0 isolatedHeap) [Op.addAfter 1 0, Op.addBefore 2 1,
          Op.addAfter 3 2, Op.remove 1, Op.addBefore 1 0]) 0 fuel = some xs) ∧
      xs.Nodup ∧ 0 ∉ xs ∧ (∀ x, x ∈ xs ↔ x ∈ membersAfter [] [Op.addAfter 1 0,
        Op.addBefore 2 1, Op.addAfter 3 2, Op.remove 1, Op.addBefore 1 0]) :=
  ⟨by decide, traversal_terminates_nodup isolatedHeap 0 _ (by decide)⟩

/-- C14: for a record at address `b` whose link field lies at byte offset `o`, with
addresses of `w` bits, `pxlibDllGetMember` applied to the address of the field returns
`b`: with the field address taken modulo the pointer width, `(b + o) mod 2 ^ w`, and with
the exact sum `b + o` when the field lies in the address space. -/
theorem getMember_recovers_record (w b o : Nat) (hb : b < 2 ^ w) :
    pxlibDllGetMember w ((b + o) % 2 ^ w) o = b ∧
    (b + o < 2 ^ w → pxlibDllGetMember w (b + o) o = b) := by
  have hpos : 0 < 2 ^ w := Nat.pos_of_ne_zero (by positivity)
  have hlt : o % 2 ^ w < 2 ^ w := Nat.mod_lt _ hpos
  have key : pxlibDllGetMember w ((b + o) % 2 ^ w) o = b := by
    unfold pxlibDllGetMember
    rw [Nat.mod_add_mod]
    have h1 : b + o + (2 ^ w - o % 2 ^ w) = b + (o - o % 2 ^ w) + 2 ^ w := by
      have := Nat.mod_le o (2 ^ w)
      omega
    have h2 : o - o % 2 ^ w = 2 ^ w * (o / 2 ^ w) := by
      have := Nat.mod_add_div o (2 ^ w)
      omega
    rw [h1, h2, Nat.add_mod_right, Nat.add_mul_mod_self_left, Nat.mod_eq_of_lt hb]
  refine ⟨key, fun hbo => ?_⟩
  rw [Nat.mod_eq_of_lt hbo] at key
  exact key

/-- C14 with 32-bit addresses: a record at `0x1000` with its link at offset 8, and a
record whose link field address wraps around. -/
theorem getMember_recovers_record_witness :
    (4096 : Nat) < 2 ^ 32 ∧ pxlibDllGetMember 32 (4096 + 8) 8 = 4096 ∧
    pxlibDllGetMember 32 ((4294967292 + 8) % 2 ^ 32) 8 = 4294967292 :=
  ⟨by decide, (getMember_recovers_record 32 4096 8 (by decide)).2 (by decide),
    (getMember_recovers_record 32 4294967292 8 (by decide)).1⟩

/-- C15: for a position `pos` with `pos.pPrevious.pNext == pos`, the state after
`pxlibDllAddBefore(new, pos)` is equal, field for field, to the state after
`pxlibDllAddAfter(new, pos.pPrevious)`, with `pos.pPrevious` read before the call (for
every `new`; that `new` differs from `pos` and `pos.pPrevious` is not needed). -/
theorem addBefore_eq_addAfter_previous (h : Heap) (new pos : Link)
    (hsym : h.pNext (h.pPrevious pos) = pos) :
    pxlibDllAddBefore new pos h = pxlibDllAddAfter new (h.pPrevious pos) h ∧
    (∀ l, (pxlibDllAddBefore new pos h).pNext l =
        (pxlibDllAddAfter new (h.pPrevious pos) h).pNext l ∧
      (pxlibDllAddBefore new pos h).pPrevious l =
        (pxlibDllAddAfter new (h.pPrevious pos) h).pPrevious l) := by
  have hf : ∀ l, (pxlibDllAddBefore new pos h).pNext l =
        (pxlibDllAddAfter new (h.pPrevious pos) h).pNext l ∧
      (pxlibDllAddBefore new pos h).pPrevious l =
        (pxlibDllAddAfter new (h.pPrevious pos) h).pPrevious l := by
    intro l
    rw [addBefore_pNext, addBefore_pPrevious, addAfter_pNext, addAfter_pPrevious, hsym]
    exact ⟨rfl, rfl⟩
  exact ⟨heap_ext (fun l => (hf l).1) (fun l => (hf l).2), hf⟩

/-- C15 at the list 1, 2 with sentinel 0: link 7 inserted before 2, or after 1. -/
theorem addBefore_eq_addAfter_previous_witness :
    (appendAll 0 [1, 2] (pxlibDllListInit 0 isolatedHeap)).pNext
      ((appendAll 0 [1, 2] (pxlibDllListInit 0 isolatedHeap)).pPrevious 2) = 2 ∧
    pxlibDllAddBefore 7 2 (appendAll 0 [1, 2] (pxlibDllListInit 0 isolatedHeap)) =
      pxlibDllAddAfter 7 ((appendAll 0 [1, 2] (pxlibDllListInit 0 isolatedHeap)).pPrevious 2)
        (appendAll 0 [1, 2] (pxlibDllListInit 0 isolatedHeap)) :=
  ⟨by decide,
    (addBefore_eq_addAfter_previous (appendAll 0 [1, 2] (pxlibDllListInit 0 isolatedHeap))
      7 2 (by decide)).1⟩

/-- C16: in a well-formed list, for every current member `n` and every position `p` (the
sentinel, a member of this list, a link of another list: any link at all),
`pxlibDllAddAfter(n, p)` returns a state, no error, in which symmetry fails: the old
predecessor `A` of `n` and `B = n`, both among the sentinel and the members, have
`A.pNext == B` but `B.pPrevious != A`. -/
theorem addAfter_member_breaks_symmetry (h : Heap) (H : Link) (xs : List Link) (n p : Link)
    (hwf : WellFormed h H xs) (hn : n ∈ xs) :
    ∃ A, A ∈ H :: xs ∧ ∃ B, B ∈ H :: xs ∧
      (pxlibDllAddAfter n p h).pNext A = B ∧ (pxlibDllAddAfter n p h).pPrevious B ≠ A := by
  have hnc : n ∈ H :: xs := List.mem_cons_of_mem H hn
  obtain ⟨hPn, hPm⟩ := wf_prev hwf hnc
  have hPne : h.pPrevious n ≠ n := wf_prev_ne_self hwf hn
  refine ⟨h.pPrevious n, hPm, n, hnc, ?_, ?_⟩
  · rw [addAfter_pNext]
    by_cases hp : h.pPrevious n = p
    · rw [if_pos hp]
    · rw [if_neg hp, if_neg hPne]; exact hPn
  · rw [addAfter_pPrevious]
    by_cases hS : n = h.pNext p
    · rw [if_pos hS]; exact Ne.symm hPne
    · rw [if_neg hS, if_pos rfl]
      intro e
      exact hS (by rw [e, hPn])

/-- C16 at the list 5, 3, 8 with sentinel 0: member 3 inserted again after the sentinel. -/
theorem addAfter_member_breaks_symmetry_witness :
    WellFormed (appendAll 0 [5, 3, 8] (pxlibDllListInit 0 isolatedHeap)) 0 [5, 3, 8] ∧
    ∃ A, A ∈ 0 :: [5, 3, 8] ∧ ∃ B, B ∈ 0 :: [5, 3, 8] ∧
      (pxlibDllAddAfter 3 0
        (appendAll 0 [5, 3, 8] (pxlibDllListInit 0 isolatedHeap))).pNext A = B ∧
      (pxlibDllAddAfter 3 0
        (appendAll 0 [5, 3, 8] (pxlibDllListInit 0 isolatedHeap))).pPrevious B ≠ A :=
  ⟨by decide,
    addAfter_member_breaks_symmetry
      (appendAll 0 [5, 3, 8] (pxlibDllListInit 0 isolatedHeap)) 0 [5, 3, 8] 3 0 (by decide)
      (by decide)⟩

/-- C17: in a well-formed list with sentinel `H` and at least one member, after
`pxlibDllRemove(H)`: no member's `pNext` or `pPrevious` is `H`; `H.pNext` and
`H.pPrevious` are unchanged, still the former first and last members; `pxlibDllFirst(H)`
returns a member, and `pxlibDllNext(H, m)` returns a member, not `NULL`, for every member
`m`; so every call of the First/Next traversal returns a member and the traversal loop
never ends, whatever the bound. -/
theorem remove_sentinel_corrupts (h : Heap) (H : Link) (xs : List Link)
    (hwf : WellFormed h H xs) (hne : xs ≠ []) :
    (∀ m ∈ xs, (pxlibDllRemove H h).pNext m ≠ H ∧ (pxlibDllRemove H h).pPrevious m ≠ H) ∧
    (pxlibDllRemove H h).pNext H = h.pNext H ∧
    (pxlibDllRemove H h).pPrevious H = h.pPrevious H ∧
    xs.head? = some ((pxlibDllRemove H h).pNext H) ∧
    xs.getLast? = some ((pxlibDllRemove H h).pPrevious H) ∧
    (∃ f, f ∈ xs ∧ pxlibDllFirst H (pxlibDllRemove H h) = some f) ∧
    (∀ m ∈ xs, ∃ q, q ∈ xs ∧ pxlibDllNext H m (pxlibDllRemove H h) = some q) ∧
    (∀ k, ∃ m, m ∈ xs ∧ traversalCall (pxlibDllRemove H h) H k = some m) ∧
    (∀ fuel, traverse (pxlibDllRemove H h) H fuel = none) := by
  have hHc : H ∈ H :: xs := List.mem_cons_self _ _
  have hHx := wf_not_mem hwf
  have hF : h.pNext H ≠ H := fun e => hne ((wf_empty_iff hwf).1 e)
  have hL : h.pPrevious H ≠ H := fun e => hF ((wf_symmetric hwf hHc hHc).2 e)
  have hFm : h.pNext H ∈ xs := wf_next_mem hwf hHc hF
  have hLm : h.pPrevious H ∈ xs := wf_prev_mem hwf hHc hL
  have hnH : (pxlibDllRemove H h).pNext H = h.pNext H := by
    rw [remove_pNext]; split <;> rfl
  have hpH : (pxlibDllRemove H h).pPrevious H = h.pPrevious H := by
    rw [remove_pPrevious]; split <;> rfl
  have hmem : ∀ m ∈ xs, (pxlibDllRemove H h).pNext m ≠ H ∧
      (pxlibDllRemove H h).pPrevious m ≠ H := by
    intro m hm
    have hmc : m ∈ H :: xs := List.mem_cons_of_mem H hm
    constructor
    · rw [remove_pNext]
      split
      · exact hF
      · rename_i hmL
        intro e
        exact hmL ((wf_symmetric hwf hmc hHc).1 e).symm
    · rw [remove_pPrevious]
      split
      · exact hL
      · rename_i hmF
        intro e
        exact hmF ((wf_symmetric hwf hHc hmc).2 e).symm
  have hnext : ∀ m ∈ xs, ∃ q, q ∈ xs ∧ pxlibDllNext H m (pxlibDllRemove H h) = some q := by
    intro m hm
    have hmc : m ∈ H :: xs := List.mem_cons_of_mem H hm
    refine ⟨(pxlibDllRemove H h).pNext m, ?_, by simp [pxlibDllNext, (hmem m hm).1]⟩
    have hne2 := (hmem m hm).1
    rw [remove_pNext] at hne2 ⊢
    split
    · exact hFm
    · rename_i hmL
      rw [if_neg hmL] at hne2
      exact wf_next_mem hwf hmc hne2
  have hfirst : ∃ f, f ∈ xs ∧ pxlibDllFirst H (pxlibDllRemove H h) = some f :=
    ⟨h.pNext H, hFm, by simp [pxlibDllFirst, pxlibDllNext, hnH, hF]⟩
  have hfrom : ∀ fuel m, m ∈ xs →
      traverseFrom (pxlibDllRemove H h) H fuel (some m) = none := by
    intro fuel
    induction fuel with
    | zero => intro m _; rfl
    | succ fuel ih =>
      intro m hm
      obtain ⟨q, hq, hmq⟩ := hnext m hm
      simp only [traverseFrom, hmq, ih q hq]
      rfl
  refine ⟨hmem, hnH, hpH, ?_, ?_, hfirst, hnext, ?_, ?_⟩
  · rw [hnH]; exact wf_head hwf hne
  · rw [hpH]; exact wf_getLast hwf hne
  · intro k
    induction k with
    | zero => exact hfirst
    | succ k ih =>
      obtain ⟨m, hm, hk⟩ := ih
      simpa [traversalCall, hk] using hnext m hm
  · intro fuel
    obtain ⟨f, hf, hff⟩ := hfirst
    rw [traverse, hff]
    exact hfrom fuel f hf

/-- C17 at the list 5, 3, 8 with sentinel 0: after removing the sentinel, call 7 of the
traversal still returns a member and the loop bounded by 100 links has not ended. -/
theorem remove_sentinel_corrupts_witness :
    WellFormed (appendAll 0 [5, 3, 8] (pxlibDllListInit 0 isolatedHeap)) 0 [5, 3, 8] ∧
    (∃ m, m ∈ [5, 3, 8] ∧ traversalCall
      (pxlibDllRemove 0 (appendAll 0 [5, 3, 8] (pxlibDllListInit 0 isolatedHeap))) 0 7 =
        some m) ∧
    traverse (pxlibDllRemove 0 (appendAll 0 [5, 3, 8] (pxlibDllListInit 0 isolatedHeap)))
      0 100 = none :=
  ⟨by decide,
    (remove_sentinel_corrupts (appendAll 0 [5, 3, 8] (pxlibDllListInit 0 isolatedHeap)) 0
      [5, 3, 8] (by decide) (by decide)).2.2.2.2.2.2.2.1 7,
    (remove_sentinel_corrupts (appendAll 0 [5, 3, 8] (pxlibDllListInit 0 isolatedHeap)) 0
      [5, 3, 8] (by decide) (by decide)).2.2.2.2.2.2.2.2 100⟩

/-- C18: for every state and every link `M` with `M.pPrevious.pNext == M` and
`M.pNext.pPrevious == M` (a member, an isolated link or a sentinel), the state after
`pxlibDllRemove(M)` followed by `pxlibDllAddAfter(M, M.pPrevious)`, with the stale
`M.pPrevious` read after the Remove, is equal, field for field, to the state before the
Remove. -/
theorem remove_then_reinsert (h : Heap) (M : Link)
    (hprev : h.pNext (h.pPrevious M) = M) (hnext : h.pPrevious (h.pNext M) = M) :
    (pxlibDllRemove M h).pPrevious M = h.pPrevious M ∧
    pxlibDllAddAfter M ((pxlibDllRemove M h).pPrevious M) (pxlibDllRemove M h) = h := by
  have hP : (pxlibDllRemove M h).pPrevious M = h.pPrevious M := by
    rw [remove_pPrevious]; split <;> rfl
  refine ⟨hP, heap_ext ?_ ?_⟩
  · intro l
    rw [hP, addAfter_pNext, remove_pNext, remove_pNext]
    by_cases h1 : l = h.pPrevious M
    · simp [h1, hprev]
    · by_cases h2 : l = M
      · subst h2
        simp [h1]
      · simp [h1, h2]
  · intro l
    rw [hP, addAfter_pPrevious, remove_pNext, remove_pPrevious]
    by_cases h1 : l = h.pNext M
    · simp [h1, hnext]
    · by_cases h2 : l = M
      · subst h2
        simp [h1]
      · simp [h1, h2]

/-- C18 at the member 3 of the list 5, 3, 8 with sentinel 0. -/
theorem remove_then_reinsert_witness :
    (appendAll 0 [5, 3, 8] (pxlibDllListInit 0 isolatedHeap)).pNext
      ((appendAll 0 [5, 3, 8] (pxlibDllListInit 0 isolatedHeap)).pPrevious 3) = 3 ∧
    (appendAll 0 [5, 3, 8] (pxlibDllListInit 0 isolatedHeap)).pPrevious
      ((appendAll 0 [5, 3, 8] (pxlibDllListInit 0 isolatedHeap)).pNext 3) = 3 ∧
    pxlibDllAddAfter 3
      ((pxlibDllRemove 3
        (appendAll 0 [5, 3, 8] (pxlibDllListInit 0 isolatedHeap))).pPrevious 3)
      (pxlibDllRemove 3 (appendAll 0 [5, 3, 8] (pxlibDllListInit 0 isolatedHeap))) =
      appendAll 0 [5, 3, 8] (pxlibDllListInit 0 isolatedHeap) :=
  ⟨by decide, by decide,
    (remove_then_reinsert (appendAll 0 [5, 3, 8] (pxlibDllListInit 0 isolatedHeap)) 3
      (by decide) (by decide)).2⟩

/-- C19: for every state and every link `M`, the state after `pxlibDllRemove(M)` followed
directly by a second `pxlibDllRemove(M)` is equal, field for field, to the state after
one `pxlibDllRemove(M)`. -/
theorem remove_idempotent (h : Heap) (M : Link) :
    pxlibDllRemove M (pxlibDllRemove M h) = pxlibDllRemove M h := by
  have hP : (pxlibDllRemove M h).pPrevious M = h.pPrevious M := by
    rw [remove_pPrevious]; split <;> rfl
  have hN : (pxlibDllRemove M h).pNext M = h.pNext M := by
    rw [remove_pNext]; split <;> rfl
  apply heap_ext
  · intro l
    rw [remove_pNext, hP, hN, remove_pNext]
    split <;> rfl
  · intro l
    rw [remove_pPrevious, hP, hN, remove_pPrevious]
    split <;> rfl

/-- C20: in every state reached from an initialized sentinel `H` by valid inserts and
removes, the sequence yielded by `pxlibDllLast(H)` and repeated `pxlibDllPrev(H, .)` until
`NULL` is the reverse of the sequence yielded by `pxlibDllFirst(H)` and repeated
`pxlibDllNext(H, .)` until `NULL`; both traversals end. -/
theorem backward_traversal_reverse (h0 : Heap) (H : Link) (ops : List Op)
    (hv : ValidSeq H [] ops) (fuel : Nat) (hf : (membersAfter [] ops).length ≤ fuel) :
    ∃ xs, traverse (exec (pxlibDllListInit H h0) ops) H fuel = some xs ∧
      traverseBack (exec (pxlibDllListInit H h0) ops) H fuel = some xs.reverse := by
  obtain ⟨xs, hwf, _, hlen⟩ := wf_reachable_length h0 H ops hv
  exact ⟨xs, wf_traverse hwf (by omega), wf_traverseBack hwf (by omega)⟩

/-- C20 at a run on sentinel 0 that inserts 1, 2, 3, removes 1 and inserts it again. -/
theorem backward_traversal_reverse_witness :
    ValidSeq 0 [] [Op.addAfter 1 0, Op.addBefore 2 1, Op.addAfter 3 2, Op.remove 1,
      Op.addBefore 1 0] ∧
    ∃ xs, traverse (exec (pxlibDllListInit 0 isolatedHeap) [Op.addAfter 1 0,
        Op.addBefore 2 1, Op.addAfter 3 2, Op.remove 1, Op.addBefore 1 0]) 0 3 = some xs ∧
      traverseBack (exec (pxlibDllListInit 0 isolatedHeap) [Op.addAfter 1 0,
        Op.addBefore 2 1, Op.addAfter 3 2, Op.remove 1, Op.addBefore 1 0]) 0 3 =
        some xs.reverse :=
  ⟨by decide, backward_traversal_reverse isolatedHeap 0 _ (by decide) 3 (by decide)⟩

end PxlibDll
